import Mathlib

/-!
Verification of the Minesweeper AI knowledge-base inference engine
(`minesweeper.py`): a shallow embedding of the `Sentence` class and the
`MinesweeperAI` class, together with theorems about the invariants and
operations of the engine.

Python sets of coordinate tuples are embedded as duplicate-free
`List (Int × Int)` values (set insertion is membership-guarded append, set
removal is `List.erase`, set equality is mutual containment).  Python `int`
is embedded as `Int`.  The unbounded `while True` fixpoint loop in
`add_knowledge` is embedded with explicit fuel, and returns which exit was
taken (value-equality quiescence, the size-50 cap, or fuel exhaustion;
fuel exhaustion does not correspond to any behaviour of the source and is
proved unreachable for sufficient fuel).
-/

/-- A board coordinate `(row, col)`, a Python tuple of two ints. -/
abbrev Cell := Int × Int

/-- Membership-guarded insertion: embedding of Python `set.add`. -/
def insertC (c : Cell) (l : List Cell) : List Cell :=
  if c ∈ l then l else l ++ [c]

/-- Boolean containment of one cell list in another (Python `set` semantics). -/
def subsetB (l1 l2 : List Cell) : Bool :=
  l1.all (fun c => decide (c ∈ l2))

/-- Boolean set equality of two cell lists: embedding of Python `set.__eq__`. -/
def setEqB (l1 l2 : List Cell) : Bool :=
  subsetB l1 l2 && subsetB l2 l1

/-- Boolean strict subset: embedding of Python `set.__lt__` (the `<` check in
`infer_new_sentences`). -/
def ssubsetB (l1 l2 : List Cell) : Bool :=
  subsetB l1 l2 && !(subsetB l2 l1)

/-- Set difference as a list: embedding of Python `set.difference`. -/
def diffC (l1 l2 : List Cell) : List Cell :=
  l1.filter (fun c => decide (c ∉ l2))

/-- Embedding of the `Sentence` class: a set of board cells and a count of the
number of those cells which are mines. -/
structure Sentence where
  cells : List Cell
  count : Int
deriving DecidableEq

/-- Embedding of `Sentence.__eq__`: set equality of the cells and equality of
the counts. -/
def sentEqB (s t : Sentence) : Bool :=
  setEqB s.cells t.cells && (s.count == t.count)

/-- Embedding of `Sentence.known_mines`: all cells if `len(cells) == count`,
else the empty set. -/
def Sentence.known_mines (s : Sentence) : List Cell :=
  if (s.cells.length : Int) = s.count then s.cells else []

/-- Embedding of `Sentence.known_safes`: all cells if `count == 0`, else the
empty set. -/
def Sentence.known_safes (s : Sentence) : List Cell :=
  if s.count = 0 then s.cells else []

/-- Embedding of `Sentence.mark_mine`: if the cell is present, remove it and
decrement the count; otherwise leave the sentence unchanged. -/
def Sentence.mark_mine (s : Sentence) (cell : Cell) : Sentence :=
  if cell ∈ s.cells then { cells := s.cells.erase cell, count := s.count - 1 }
  else s

/-- Embedding of `Sentence.mark_safe`: if the cell is present, remove it;
the count is unchanged. -/
def Sentence.mark_safe (s : Sentence) (cell : Cell) : Sentence :=
  if cell ∈ s.cells then { cells := s.cells.erase cell, count := s.count }
  else s

/-- Embedding of Python `==` on two knowledge lists: positional comparison
with `Sentence.__eq__` on the elements. -/
def listEqB : List Sentence → List Sentence → Bool
  | [], [] => true
  | s :: k1, t :: k2 => sentEqB s t && listEqB k1 k2
  | _, _ => false

/-- Embedding of the `MinesweeperAI` class state. -/
structure MinesweeperAI where
  height : Int
  width : Int
  moves_made : List Cell
  mines : List Cell
  safes : List Cell
  knowledge : List Sentence
deriving DecidableEq

/-- Embedding of `MinesweeperAI.__init__`. -/
def MinesweeperAI.init (height width : Int) : MinesweeperAI :=
  { height := height, width := width, moves_made := [], mines := [],
    safes := [], knowledge := [] }

/-- Embedding of `MinesweeperAI.mark_mine`: add the cell to `mines` and narrow
every sentence in `knowledge` with `Sentence.mark_mine`. -/
def MinesweeperAI.mark_mine (st : MinesweeperAI) (cell : Cell) : MinesweeperAI :=
  { st with mines := insertC cell st.mines,
            knowledge := st.knowledge.map (fun s => s.mark_mine cell) }

/-- Embedding of `MinesweeperAI.mark_safe`: add the cell to `safes` and narrow
every sentence in `knowledge` with `Sentence.mark_safe`. -/
def MinesweeperAI.mark_safe (st : MinesweeperAI) (cell : Cell) : MinesweeperAI :=
  { st with safes := insertC cell st.safes,
            knowledge := st.knowledge.map (fun s => s.mark_safe cell) }

/-- Embedding of the neighbour computation in `add_knowledge`: the cells within
one row and column of `cell`, clipped to the board bounds, excluding `cell`
itself. -/
def neighbouring_cells (height width : Int) (cell : Cell) : List Cell :=
  (([cell.1 - 1, cell.1, cell.1 + 1].flatMap fun i =>
      [cell.2 - 1, cell.2, cell.2 + 1].map fun j => ((i, j) : Cell))).filter
    fun p => decide (0 ≤ p.1) && decide (p.1 < height) &&
             decide (0 ≤ p.2) && decide (p.2 < width) && !(decide (p = cell))

/-- Embedding of `MinesweeperAI.refresh_knowledge`: for every sentence in a
snapshot of `knowledge`, mark every cell of `known_mines()` as a mine and every
cell of `known_safes()` as safe (the snapshot sentences are the deep copies;
the marks act on the live state). -/
def refreshOne (acc : MinesweeperAI) (v : Sentence) : MinesweeperAI :=
  let acc1 := v.known_mines.foldl (fun a c => a.mark_mine c) acc
  v.known_safes.foldl (fun a c => a.mark_safe c) acc1

def MinesweeperAI.refresh_knowledge (st : MinesweeperAI) : MinesweeperAI :=
  st.knowledge.foldl refreshOne st

/-- Embedding of `MinesweeperAI.remove_stale_sentences`: for every sentence in
a snapshot of `knowledge` whose cell set is empty, remove the first sentence of
`knowledge` equal to it (Python `list.remove` with `Sentence.__eq__`). -/
def removeStep (k : List Sentence) (v : Sentence) : List Sentence :=
  if v.cells.isEmpty then k.eraseP (fun s => sentEqB s v) else k

def MinesweeperAI.remove_stale_sentences (st : MinesweeperAI) : MinesweeperAI :=
  let k' := st.knowledge.foldl removeStep st.knowledge
  { st with knowledge := k' }

/-- Embedding of `MinesweeperAI.infer_new_sentences`: for every ordered pair of
sentences in a snapshot of `knowledge` whose first component's cells are a
strict subset of the second's, append the difference sentence to `knowledge`
unless a sentence equal to it (by `Sentence.__eq__`) is already present. -/
def combined (s1 s2 : Sentence) : Sentence :=
  { cells := diffC s2.cells s1.cells, count := s2.count - s1.count }

def appendNew (k : List Sentence) (new : Sentence) : List Sentence :=
  if k.any (fun s => sentEqB s new) then k else k ++ [new]

def inferStep (s1 : Sentence) (k : List Sentence) (s2 : Sentence) : List Sentence :=
  if ssubsetB s1.cells s2.cells then appendNew k (combined s1 s2) else k

def MinesweeperAI.infer_new_sentences (st : MinesweeperAI) : MinesweeperAI :=
  let k' := st.knowledge.foldl
    (fun k1 s1 => st.knowledge.foldl (inferStep s1) k1)
    st.knowledge
  { st with knowledge := k' }

/-- How the fixpoint loop in `add_knowledge` exited: by value-equality
quiescence of `knowledge`, by the defensive size cap (`len > 50` after a
change), or by running out of fuel (an artefact of the embedding only). -/
inductive ExitKind where
  | quiescent
  | cap
  | fuelOut
deriving DecidableEq

/-- One pass of the fixpoint loop body: `refresh_knowledge`, then
`remove_stale_sentences`, then `infer_new_sentences`. -/
def loopStep (st : MinesweeperAI) : MinesweeperAI :=
  (st.refresh_knowledge.remove_stale_sentences).infer_new_sentences

/-- The `while True` fixpoint loop of `add_knowledge`, with fuel: breaks when
a pass leaves `knowledge` unchanged by value, or when `knowledge` has grown
past 50 sentences after a changing pass. -/
def loopGo : Nat → MinesweeperAI → MinesweeperAI × ExitKind
  | 0, st => (st, ExitKind.fuelOut)
  | n + 1, st =>
      let st' := loopStep st
      if listEqB st'.knowledge st.knowledge then (st', ExitKind.quiescent)
      else if 50 < st'.knowledge.length then (st', ExitKind.cap)
      else loopGo n st'

/-- Embedding of `MinesweeperAI.add_knowledge`: record the move, mark the cell
safe, build the neighbour sentence narrowed against all known mines and safes,
append it, and run the fixpoint loop. -/
def MinesweeperAI.add_knowledge (fuel : Nat) (st : MinesweeperAI) (cell : Cell)
    (count : Int) : MinesweeperAI × ExitKind :=
  let st1 := { st with moves_made := insertC cell st.moves_made }
  let st2 := st1.mark_safe cell
  let s0 : Sentence := { cells := neighbouring_cells st.height st.width cell,
                         count := count }
  let s1 := st2.mines.foldl (fun s c => s.mark_mine c) s0
  let s2 := st2.safes.foldl (fun s c => s.mark_safe c) s1
  let st3 := { st2 with knowledge := st2.knowledge ++ [s2] }
  loopGo fuel st3

/-- Embedding of `MinesweeperAI.make_safe_move`: an arbitrary (randomness
oracle `r`) element of `safes − moves_made`, or `none` if that set is empty;
the state is returned unchanged. -/
def MinesweeperAI.make_safe_move (st : MinesweeperAI) (r : Nat) :
    Option Cell × MinesweeperAI :=
  let available_moves := diffC st.safes st.moves_made
  if !available_moves.isEmpty then
    (available_moves.get? (r % available_moves.length), st)
  else
    (none, st)

/-- The true number of hazards among the in-bounds neighbours of a cell, for a
fixed hazard placement `M` (the count reported by an honest grid, as computed
by `Minesweeper.nearby_mines`). -/
def trueCount (height width : Int) (M : List Cell) (cell : Cell) : Int :=
  (((neighbouring_cells height width cell).filter
      fun c => decide (c ∈ M)).length : Int)

/-- Run a sequence of `add_knowledge` calls; the Boolean records that no call
exhausted its fuel (so every recorded return is a genuine return of the
source's loop, via quiescence or the size cap). -/
def runTrace (fuel : Nat) (st : MinesweeperAI) (moves : List (Cell × Int)) :
    MinesweeperAI × Bool :=
  moves.foldl
    (fun acc p =>
      let r := MinesweeperAI.add_knowledge fuel acc.1 p.1 p.2
      (r.1, acc.2 && decide (r.2 ≠ ExitKind.fuelOut)))
    (st, true)

/-- A sequence of recorded facts is honest for the placement `M`: every
reported count is the true number of hazards among the revealed cell's
in-bounds neighbours, and every revealed cell is itself hazard-free. -/
def honestStrongB (height width : Int) (M : List Cell)
    (moves : List (Cell × Int)) : Bool :=
  moves.all fun p => decide (p.1 ∉ M) && (p.2 == trueCount height width M p.1)

/-- Count-only honesty, as in the invariant claims' precondition: every
reported count is the true number of hazards among the revealed cell's
in-bounds neighbours for the fixed placement `M`. -/
def honestCountsB (height width : Int) (M : List Cell)
    (moves : List (Cell × Int)) : Bool :=
  moves.all fun p => p.2 == trueCount height width M p.1

/-- A state has an immediately-derivable fact that was not extracted: some
sentence with `count = 0` and non-empty cells not all flagged safe, or with
`count = |cells|` and non-empty cells not all flagged as mines. -/
def derivableLeftB (st : MinesweeperAI) : Bool :=
  st.knowledge.any fun s =>
    ((s.count == 0) && !s.cells.isEmpty && !(subsetB s.cells st.safes)) ||
    (((s.cells.length : Int) == s.count) && !s.cells.isEmpty &&
      !(subsetB s.cells st.mines))

/-- A state violates the `0 ≤ count ≤ |cells|` invariant in some sentence. -/
def countBoundsViolationB (st : MinesweeperAI) : Bool :=
  st.knowledge.any fun s =>
    decide (s.count < 0) || decide ((s.cells.length : Int) < s.count)

/-- A sentence equal (by value) to `t` is present in `k`. -/
def presentB (k : List Sentence) (t : Sentence) : Prop :=
  ∃ S ∈ k, sentEqB S t = true

/-- Value-distinctness of a knowledge list: no two sentences are equal by
`Sentence.__eq__`. -/
def valueDistinct (k : List Sentence) : Prop :=
  List.Pairwise (fun s t => sentEqB s t = false) k

/-- The cells of a sentence are duplicate-free and avoid both marked sets. -/
def CellsOK (mines safes : List Cell) (s : Sentence) : Prop :=
  s.cells.Nodup ∧ ∀ c ∈ s.cells, c ∉ mines ∧ c ∉ safes

/-- Every live sentence's cells avoid `mines` and `safes`. -/
def StInv (st : MinesweeperAI) : Prop :=
  ∀ s ∈ st.knowledge, CellsOK st.mines st.safes s


/-- A sentence is a true statement about the hazard placement `M`: its count
equals the number of its cells that lie in `M`. -/
def TrueS (M : List Cell) (s : Sentence) : Prop :=
  s.count = ((s.cells.filter fun c => decide (c ∈ M)).length : Int)

/-- Soundness of the engine state with respect to the placement `M`: every
flagged mine is a real hazard, no flagged safe is a hazard, and every live
sentence is a true, duplicate-free statement about `M`. -/
def SoundM (M : List Cell) (st : MinesweeperAI) : Prop :=
  (∀ c ∈ st.mines, c ∈ M) ∧ (∀ c ∈ st.safes, c ∉ M) ∧
    ∀ s ∈ st.knowledge, s.cells.Nodup ∧ TrueS M s

/-- The three mutating public operations of the inference engine. -/
inductive EngineOp where
  | addK (cell : Cell) (count : Int)
  | recordMine (cell : Cell)
  | recordSafe (cell : Cell)

/-- Apply one engine operation. -/
def applyOp (fuel : Nat) (st : MinesweeperAI) : EngineOp → MinesweeperAI
  | EngineOp.addK cell count => (st.add_knowledge fuel cell count).1
  | EngineOp.recordMine cell => st.mark_mine cell
  | EngineOp.recordSafe cell => st.mark_safe cell

/-- Run a sequence of engine operations. -/
def runOps (fuel : Nat) (ops : List EngineOp) (st : MinesweeperAI) :
    MinesweeperAI :=
  ops.foldl (applyOp fuel) st

/-- An operation is honest for board dimensions and placement `M`: a recorded
fact reports the true count for a hazard-free cell, a hazard record names a
real hazard, and a safe record names a hazard-free cell. -/
def HonestOp (height width : Int) (M : List Cell) : EngineOp → Prop
  | EngineOp.addK cell count =>
      cell ∉ M ∧ count = trueCount height width M cell
  | EngineOp.recordMine cell => cell ∈ M
  | EngineOp.recordSafe cell => cell ∉ M

/-- The board dimensions recorded in the engine state. -/
def HW (height width : Int) (st : MinesweeperAI) : Prop :=
  st.height = height ∧ st.width = width

/-- The fixed hazard placement of claim C2's counterexample. -/
def c2M : List Cell := [(0, 0)]

/-- Claim C2's counterexample trace on a 1×5 board: every reported count is
true for `c2M`, but the second revealed cell is itself the hazard. -/
def c2Trace : List (Cell × Int) := [((0, 1), 1), ((0, 0), 0), ((0, 3), 0)]

/-- Every live sentence's cell list is duplicate-free (automatic for Python
sets; an invariant of the embedding). -/
def nodupK (st : MinesweeperAI) : Prop :=
  ∀ s ∈ st.knowledge, s.cells.Nodup

/-- The marked sets of `a` are contained in those of `b`. -/
def marksLe (a b : MinesweeperAI) : Prop :=
  (∀ c ∈ a.mines, c ∈ b.mines) ∧ (∀ c ∈ a.safes, c ∈ b.safes)

/-- The revealed cells of claim C1's counterexample trace: fifty cells along
the single row of a 1×160 board, three columns apart. -/
def c1Fillers : List Cell :=
  (List.range 50).map fun k => ((0, 3 * (k : Int) + 1) : Cell)

/-- The fixed hazard placement of claim C1's counterexample: one hazard to the
right of every filler cell, plus a hazard at column 151. -/
def c1M : List Cell :=
  c1Fillers.map (fun p => (p.1, p.2 + 1)) ++ [(0, 151)]

/-- Claim C1's counterexample trace: fifty inert reveals (each leaves one live
two-cell sentence), then `(0,152)` whose sentence pairs the far hazard with a
safe cell, then `(0,154)` with count 0, whose extraction narrows the previous
sentence to a full singleton inside the same pass — at which point the size
cap fires with the fact unextracted. -/
def c1Trace : List (Cell × Int) :=
  c1Fillers.map (fun c => (c, (1 : Int))) ++ [((0, 152), 1), ((0, 154), 0)]

/-- Run a sequence of `add_knowledge` calls, recording the final state,
whether every call exited properly (never by fuel exhaustion), and the exit
kind of the last call. -/
def runTraceX (fuel : Nat) (st : MinesweeperAI) (moves : List (Cell × Int)) :
    MinesweeperAI × Bool × ExitKind :=
  moves.foldl
    (fun acc p =>
      let r := MinesweeperAI.add_knowledge fuel acc.1 p.1 p.2
      (r.1, acc.2.1 && decide (r.2 ≠ ExitKind.fuelOut), r.2))
    (st, true, ExitKind.quiescent)

/-- The engine state after the first `j` (of 50) filler reveals of claim C1's
counterexample trace: each filler reveal of `(0, 3k+1)` with count 1 leaves
the live sentence `{(0,3k), (0,3k+2)} = 1`. -/
def c1S (j : Nat) : MinesweeperAI :=
  { height := 1, width := 160,
    moves_made := (List.range j).map fun k => ((0 : Int), 3 * (k : Int) + 1),
    mines := [],
    safes := (List.range j).map fun k => ((0 : Int), 3 * (k : Int) + 1),
    knowledge := (List.range j).map fun k =>
      { cells := [((0 : Int), 3 * (k : Int)), ((0 : Int), 3 * (k : Int) + 2)],
        count := 1 } }

/-- The engine state after the 51st call of claim C1's counterexample trace
(revealing `(0,152)` with count 1). -/
def c1Spen : MinesweeperAI :=
  { c1S 50 with
    moves_made := (c1S 50).moves_made ++ [(0, 152)],
    safes := (c1S 50).safes ++ [(0, 152)],
    knowledge := (c1S 50).knowledge ++
      [{ cells := [(0, 151), (0, 153)], count := 1 }] }

/-- The engine state at the final (cap) return of claim C1's counterexample
trace: the sentence `{(0,151)} = 1` is live, full, and unextracted. -/
def c1Sfin : MinesweeperAI :=
  { c1S 50 with
    moves_made := (c1S 50).moves_made ++ [(0, 152), (0, 154)],
    safes := (c1S 50).safes ++ [(0, 152), (0, 154), (0, 153), (0, 155)],
    knowledge := (c1S 50).knowledge ++
      [{ cells := [(0, 151)], count := 1 }] }

/-- The step table of claim C1's counterexample: each entry holds a move, the
engine state after that `add_knowledge` call, and the call's loop exit. -/
def c1Steps : List ((Cell × Int) × MinesweeperAI × ExitKind) :=
  ((List.range 50).map fun (k : Nat) =>
    ((((0 : Int), 3 * (k : Int) + 1), (1 : Int)), c1S (k + 1),
      ExitKind.quiescent)) ++
  [(((0, 152), 1), c1Spen, ExitKind.quiescent),
   (((0, 154), 0), c1Sfin, ExitKind.cap)]

/-- The state of `add_knowledge` just before its fixpoint loop: the move and
safe mark recorded, and the narrowed neighbour sentence appended. -/
def buildStart (st : MinesweeperAI) (cell : Cell) (count : Int) :
    MinesweeperAI :=
  let st1 := { st with moves_made := insertC cell st.moves_made }
  let st2 := st1.mark_safe cell
  let s0 : Sentence := { cells := neighbouring_cells st.height st.width cell,
                         count := count }
  let s1 := st2.mines.foldl (fun s c => s.mark_mine c) s0
  let s2 := st2.safes.foldl (fun s c => s.mark_safe c) s1
  { st2 with knowledge := st2.knowledge ++ [s2] }

/-- A linear-time certificate that a knowledge list admits no strict-subset
pair: every sentence's cell list is duplicate-free and has the same length as
the first one's (a strict subset would force a strictly smaller length). -/
def uniformLenB (k : List Sentence) : Bool :=
  match k with
  | [] => true
  | s :: _ =>
      k.all fun t =>
        (t.cells.length == s.cells.length) && decide t.cells.Nodup

/-- Certificate check for one `add_knowledge` call whose first loop pass makes
no Combine inference (no strict-subset pair, certified either by the uniform
cell-count certificate or by the exhaustive pairwise check): the resulting
state is the pass result, and the exit is quiescence or the cap according to
the value-equality and length tests. -/
def callCheckB (st : MinesweeperAI) (cell : Cell) (count : Int)
    (res : MinesweeperAI) (e : ExitKind) : Bool :=
  let st3 := buildStart st cell count
  let st5 := (st3.refresh_knowledge).remove_stale_sentences
  (uniformLenB st5.knowledge ||
    (st5.knowledge.all fun s1 =>
      st5.knowledge.all fun s2 => !(ssubsetB s1.cells s2.cells))) &&
  decide (res = st5) &&
  (match e with
   | ExitKind.quiescent => listEqB st5.knowledge st3.knowledge
   | ExitKind.cap =>
       !(listEqB st5.knowledge st3.knowledge) &&
         decide (50 < st5.knowledge.length)
   | ExitKind.fuelOut => false)

/-- Check a step table: each recorded call from the recorded previous state is
certified by `callCheckB` to return the recorded state and exit. -/
def stepsOK2B :
    MinesweeperAI → List ((Cell × Int) × MinesweeperAI × ExitKind) → Bool
  | _, [] => true
  | st, t :: rest =>
      callCheckB st t.1.1 t.1.2 t.2.1 t.2.2 && stepsOK2B t.2.1 rest

/-- The final state and exit recorded in a step table. -/
def FinalOf :
    MinesweeperAI → ExitKind → List ((Cell × Int) × MinesweeperAI × ExitKind) →
      MinesweeperAI × ExitKind
  | st, e, [] => (st, e)
  | _, _, t :: rest => FinalOf t.2.1 t.2.2 rest

/-- All cells mentioned by any sentence of a knowledge list. -/
def cellsUniverse (k : List Sentence) : Finset Cell :=
  k.foldr (fun s acc => s.cells.toFinset ∪ acc) ∅

/-- Termination measure for the fixpoint loop, for states whose knowledge
holds at most 50 sentences: dominated by the number of distinct mentioned
cells, then the number of empty sentences, then the free room below the size
cap. -/
def passMeasure (st : MinesweeperAI) : Nat :=
  2704 * (cellsUniverse st.knowledge).card +
    52 * st.knowledge.countP (fun s => s.cells.isEmpty) +
    (51 - st.knowledge.length)

section Helpers

theorem mem_insertC {a c : Cell} {l : List Cell} :
    a ∈ insertC c l ↔ a = c ∨ a ∈ l := by
  unfold insertC
  split
  · rename_i h
    constructor
    · exact Or.inr
    · rintro (rfl | h') <;> simp_all
  · simp [or_comm]

theorem self_mem_insertC (c : Cell) (l : List Cell) : c ∈ insertC c l :=
  mem_insertC.mpr (Or.inl rfl)

theorem mem_insertC_of_mem {a : Cell} (c : Cell) {l : List Cell} (h : a ∈ l) :
    a ∈ insertC c l :=
  mem_insertC.mpr (Or.inr h)

theorem insertC_of_mem {c : Cell} {l : List Cell} (h : c ∈ l) :
    insertC c l = l := by
  simp [insertC, h]

theorem subsetB_iff {l1 l2 : List Cell} :
    subsetB l1 l2 = true ↔ ∀ c ∈ l1, c ∈ l2 := by
  simp [subsetB]

theorem setEqB_iff {l1 l2 : List Cell} :
    setEqB l1 l2 = true ↔ (∀ c ∈ l1, c ∈ l2) ∧ (∀ c ∈ l2, c ∈ l1) := by
  simp [setEqB, subsetB_iff]

theorem setEqB_refl (l : List Cell) : setEqB l l = true := by
  simp [setEqB_iff]

theorem sentEqB_refl (s : Sentence) : sentEqB s s = true := by
  simp [sentEqB, setEqB_refl]

theorem listEqB_refl (k : List Sentence) : listEqB k k = true := by
  induction k with
  | nil => rfl
  | cons s k ih => simp [listEqB, sentEqB_refl, ih]

theorem mem_diffC {a : Cell} {l1 l2 : List Cell} :
    a ∈ diffC l1 l2 ↔ a ∈ l1 ∧ a ∉ l2 := by
  simp [diffC]

theorem sentEqB_iff {s t : Sentence} :
    sentEqB s t = true ↔
      ((∀ c ∈ s.cells, c ∈ t.cells) ∧ (∀ c ∈ t.cells, c ∈ s.cells)) ∧
        s.count = t.count := by
  simp [sentEqB, setEqB_iff]

theorem Sentence.mark_mine_of_mem {s : Sentence} {c : Cell} (h : c ∈ s.cells) :
    s.mark_mine c = { cells := s.cells.erase c, count := s.count - 1 } := by
  simp [Sentence.mark_mine, h]

theorem Sentence.mark_mine_of_not_mem {s : Sentence} {c : Cell}
    (h : c ∉ s.cells) : s.mark_mine c = s := by
  simp [Sentence.mark_mine, h]

theorem Sentence.mark_safe_of_mem {s : Sentence} {c : Cell} (h : c ∈ s.cells) :
    s.mark_safe c = { cells := s.cells.erase c, count := s.count } := by
  simp [Sentence.mark_safe, h]

theorem Sentence.mark_safe_of_not_mem {s : Sentence} {c : Cell}
    (h : c ∉ s.cells) : s.mark_safe c = s := by
  simp [Sentence.mark_safe, h]

end Helpers

/-- The claim C6 concerns `Sentence.mark_mine` and `Sentence.mark_safe` on a
single sentence; set subtraction is phrased by membership, as the cell lists
are duplicate-free embeddings of Python sets. -/
theorem c6_narrow_correct (s : Sentence) (c : Cell) (hnd : s.cells.Nodup) :
    (c ∈ s.cells →
      (∀ x, x ∈ (s.mark_mine c).cells ↔ x ∈ s.cells ∧ x ≠ c) ∧
      (s.mark_mine c).count = s.count - 1 ∧
      (∀ x, x ∈ (s.mark_safe c).cells ↔ x ∈ s.cells ∧ x ≠ c) ∧
      (s.mark_safe c).count = s.count) ∧
    (c ∉ s.cells → s.mark_mine c = s ∧ s.mark_safe c = s) := by
  constructor
  · intro hc
    refine ⟨?_, ?_, ?_, ?_⟩
    · intro x
      rw [Sentence.mark_mine_of_mem hc]
      simpa [and_comm] using hnd.mem_erase_iff (b := c) (a := x)
    · rw [Sentence.mark_mine_of_mem hc]
    · intro x
      rw [Sentence.mark_safe_of_mem hc]
      simpa [and_comm] using hnd.mem_erase_iff (b := c) (a := x)
    · rw [Sentence.mark_safe_of_mem hc]
  · intro hc
    exact ⟨Sentence.mark_mine_of_not_mem hc, Sentence.mark_safe_of_not_mem hc⟩

/-- Witness for C6 at a concrete sentence. -/
theorem c6_narrow_correct_witness :
    let s : Sentence := { cells := [(0, 0), (0, 1)], count := 1 }
    (∀ x, x ∈ (s.mark_mine (0, 0)).cells ↔ x ∈ s.cells ∧ x ≠ (0, 0)) ∧
      (s.mark_mine (0, 0)).count = 0 := by
  intro s
  have h := c6_narrow_correct s (0, 0) (by decide)
  have h1 := h.1 (by decide)
  exact ⟨h1.1, h1.2.1⟩

section Idempotence

theorem Sentence.mark_mine_idem (s : Sentence) (c : Cell)
    (h : s.cells.Nodup) : (s.mark_mine c).mark_mine c = s.mark_mine c := by
  by_cases hc : c ∈ s.cells
  · rw [Sentence.mark_mine_of_mem hc]
    exact Sentence.mark_mine_of_not_mem (h.not_mem_erase)
  · rw [Sentence.mark_mine_of_not_mem hc, Sentence.mark_mine_of_not_mem hc]

theorem Sentence.mark_safe_idem (s : Sentence) (c : Cell)
    (h : s.cells.Nodup) : (s.mark_safe c).mark_safe c = s.mark_safe c := by
  by_cases hc : c ∈ s.cells
  · rw [Sentence.mark_safe_of_mem hc]
    exact Sentence.mark_safe_of_not_mem (h.not_mem_erase)
  · rw [Sentence.mark_safe_of_not_mem hc, Sentence.mark_safe_of_not_mem hc]

theorem insertC_idem (c : Cell) (l : List Cell) :
    insertC c (insertC c l) = insertC c l :=
  insertC_of_mem (self_mem_insertC c l)

end Idempotence

/-- Claim C7: the engine operations `mark_mine` and `mark_safe` are idempotent
on every engine state (Python cell sets are duplicate-free). -/
theorem c7_mark_idempotent (st : MinesweeperAI) (c : Cell)
    (h : ∀ s ∈ st.knowledge, s.cells.Nodup) :
    (st.mark_mine c).mark_mine c = st.mark_mine c ∧
    (st.mark_safe c).mark_safe c = st.mark_safe c := by
  constructor
  · show ({ st with
        mines := insertC c (insertC c st.mines),
        knowledge := (st.knowledge.map fun s => s.mark_mine c).map
          fun s => s.mark_mine c } : MinesweeperAI) = _
    rw [insertC_idem, List.map_map]
    congr 1
    apply List.map_congr_left
    intro s hs
    exact Sentence.mark_mine_idem s c (h s hs)
  · show ({ st with
        safes := insertC c (insertC c st.safes),
        knowledge := (st.knowledge.map fun s => s.mark_safe c).map
          fun s => s.mark_safe c } : MinesweeperAI) = _
    rw [insertC_idem, List.map_map]
    congr 1
    apply List.map_congr_left
    intro s hs
    exact Sentence.mark_safe_idem s c (h s hs)

/-- Witness for C7 at a concrete engine state. -/
theorem c7_mark_idempotent_witness :
    let st : MinesweeperAI :=
      { height := 2, width := 2, moves_made := [], mines := [], safes := [],
        knowledge := [{ cells := [(0, 0), (0, 1)], count := 1 }] }
    (st.mark_mine (0, 0)).mark_mine (0, 0) = st.mark_mine (0, 0) ∧
    (st.mark_safe (0, 1)).mark_safe (0, 1) = st.mark_safe (0, 1) := by
  intro st
  exact ⟨(c7_mark_idempotent st (0, 0) (by decide)).1,
         (c7_mark_idempotent st (0, 1) (by decide)).2⟩

/-- Claim C8: `make_safe_move` returns an element of `safes − moves_made` when
that set is non-empty, returns `none` exactly when it is empty, and leaves the
engine state unchanged (for every randomness oracle value `r`). -/
theorem c8_make_safe_move_spec (st : MinesweeperAI) (r : Nat) :
    (st.make_safe_move r).2 = st ∧
    ((st.make_safe_move r).1 = none ↔ ∀ c ∈ st.safes, c ∈ st.moves_made) ∧
    (∀ c : Cell, (st.make_safe_move r).1 = some c →
      c ∈ st.safes ∧ c ∉ st.moves_made) := by
  have hempty : (diffC st.safes st.moves_made).isEmpty = true ↔
      ∀ c ∈ st.safes, c ∈ st.moves_made := by
    rw [List.isEmpty_iff]
    unfold diffC
    rw [List.filter_eq_nil_iff]
    simp
  unfold MinesweeperAI.make_safe_move
  by_cases h : (diffC st.safes st.moves_made).isEmpty
  · rw [if_neg (by simp [h])]
    exact ⟨rfl, by simpa using hempty.mp h, by simp⟩
  · simp only [Bool.not_eq_true] at h
    rw [if_pos (by simp [h])]
    have hne : diffC st.safes st.moves_made ≠ [] := by
      intro hnil
      rw [← List.isEmpty_iff] at hnil
      simp [hnil] at h
    have hlen : 0 < (diffC st.safes st.moves_made).length :=
      List.length_pos.mpr hne
    have hlt : r % (diffC st.safes st.moves_made).length <
        (diffC st.safes st.moves_made).length := Nat.mod_lt _ hlen
    refine ⟨rfl, ?_, ?_⟩
    · constructor
      · intro hnone
        simp only [List.get?_eq_none] at hnone
        omega
      · intro hall
        rw [hempty.mpr hall] at h
        exact absurd h (by simp)
    · intro c hc
      have hmem : c ∈ diffC st.safes st.moves_made := List.get?_mem hc
      exact mem_diffC.mp hmem

/-- Claim C3's counterexample: with direct engine operations in an arbitrary
order (`mark_mine (0,0)` then `mark_safe (0,0)` on a fresh engine), `mines`
and `safes` are not disjoint. -/
theorem c3_arbitrary_marks_violation :
    (0, 0) ∈ (((MinesweeperAI.init 8 8).mark_mine (0, 0)).mark_safe (0, 0)).mines ∧
    (0, 0) ∈ (((MinesweeperAI.init 8 8).mark_mine (0, 0)).mark_safe (0, 0)).safes := by
  decide

/-- Claim C9's counterexample: `add_knowledge` with a negative count performs
no validation: the call returns normally (loop exits by quiescence, not by any
error path — no error path exists) and leaves a sentence with `count = -3 < 0`
in `knowledge`, corrupting the `0 ≤ count ≤ |cells|` invariant. -/
theorem c9_no_validation_violation :
    (MinesweeperAI.add_knowledge 5 (MinesweeperAI.init 8 8) (0, 0) (-3)).2 =
      ExitKind.quiescent ∧
    countBoundsViolationB
      (MinesweeperAI.add_knowledge 5 (MinesweeperAI.init 8 8) (0, 0) (-3)).1 =
      true := by
  decide

section Combine

theorem presentB_appendNew {k : List Sentence} {t : Sentence} (new : Sentence)
    (h : presentB k t) : presentB (appendNew k new) t := by
  unfold appendNew
  obtain ⟨S, hS, hEq⟩ := h
  split
  · exact ⟨S, hS, hEq⟩
  · exact ⟨S, List.mem_append_left _ hS, hEq⟩

theorem presentB_appendNew_self (k : List Sentence) (new : Sentence) :
    presentB (appendNew k new) new := by
  unfold appendNew
  split
  · rename_i hany
    obtain ⟨S, hS, hEq⟩ := List.any_eq_true.mp hany
    exact ⟨S, hS, hEq⟩
  · exact ⟨new, List.mem_append_right _ (List.mem_singleton.mpr rfl),
      sentEqB_refl _⟩

theorem presentB_inferStep {k : List Sentence} {t : Sentence}
    (s1 s2 : Sentence) (h : presentB k t) : presentB (inferStep s1 k s2) t := by
  unfold inferStep
  split
  · exact presentB_appendNew _ h
  · exact h

theorem presentB_innerFold {t : Sentence}
    (s1 : Sentence) (l : List Sentence) :
    ∀ k : List Sentence, presentB k t → presentB (l.foldl (inferStep s1) k) t := by
  induction l with
  | nil => exact fun k h => h
  | cons s2 l ih => exact fun k h => ih _ (presentB_inferStep s1 s2 h)

theorem presentB_inferStep_self (s1 : Sentence) (k : List Sentence)
    (s2 : Sentence) (hss : ssubsetB s1.cells s2.cells = true) :
    presentB (inferStep s1 k s2) (combined s1 s2) := by
  unfold inferStep
  rw [if_pos hss]
  exact presentB_appendNew_self k (combined s1 s2)

theorem presentB_innerFold_of_mem {s1 B : Sentence} (l : List Sentence)
    (hss : ssubsetB s1.cells B.cells = true) :
    ∀ k : List Sentence, B ∈ l →
      presentB (l.foldl (inferStep s1) k) (combined s1 B) := by
  induction l with
  | nil => intro k hB; cases hB
  | cons s2 l ih =>
    intro k hB
    rcases List.mem_cons.mp hB with rfl | hB'
    · show presentB (List.foldl (inferStep s1) (inferStep s1 k B) l) (combined s1 B)
      exact presentB_innerFold s1 l (inferStep s1 k B)
        (presentB_inferStep_self s1 k B hss)
    · exact ih _ hB'

theorem presentB_outerFold_mono {t : Sentence} (snap l1 : List Sentence) :
    ∀ k : List Sentence, presentB k t →
      presentB (l1.foldl (fun k1 s1 => snap.foldl (inferStep s1) k1) k) t := by
  induction l1 with
  | nil => exact fun k h => h
  | cons s1 l1 ih => exact fun k h => ih _ (presentB_innerFold s1 snap k h)

theorem presentB_outerFold {A B : Sentence} (l1 : List Sentence)
    (snap : List Sentence) (hB : B ∈ snap)
    (hss : ssubsetB A.cells B.cells = true) :
    ∀ k : List Sentence, A ∈ l1 →
      presentB (l1.foldl (fun k1 s1 => snap.foldl (inferStep s1) k1) k)
        (combined A B) := by
  induction l1 with
  | nil => intro k hA; cases hA
  | cons s1 l1 ih =>
    intro k hA
    rcases List.mem_cons.mp hA with rfl | hA'
    · exact presentB_outerFold_mono snap l1 _
        (presentB_innerFold_of_mem snap hss k hB)
    · exact ih _ hA'

theorem valueDistinct_appendNew {k : List Sentence} (new : Sentence)
    (h : valueDistinct k) : valueDistinct (appendNew k new) := by
  unfold appendNew
  split
  · exact h
  · rename_i hany
    rw [Bool.not_eq_true, List.any_eq_false] at hany
    refine List.pairwise_append.mpr ⟨h, List.pairwise_singleton _ _, ?_⟩
    intro s hs t ht
    rw [List.mem_singleton] at ht
    subst ht
    simpa using hany s hs

theorem valueDistinct_inferStep {k : List Sentence} (s1 s2 : Sentence)
    (h : valueDistinct k) : valueDistinct (inferStep s1 k s2) := by
  unfold inferStep
  split
  · exact valueDistinct_appendNew _ h
  · exact h

theorem valueDistinct_innerFold (s1 : Sentence) (l : List Sentence) :
    ∀ k : List Sentence, valueDistinct k →
      valueDistinct (l.foldl (inferStep s1) k) := by
  induction l with
  | nil => exact fun k h => h
  | cons s2 l ih => exact fun k h => ih _ (valueDistinct_inferStep s1 s2 h)

theorem valueDistinct_outerFold (l1 snap : List Sentence) :
    ∀ k : List Sentence, valueDistinct k →
      valueDistinct (l1.foldl (fun k1 s1 => snap.foldl (inferStep s1) k1) k) := by
  induction l1 with
  | nil => exact fun k h => h
  | cons s1 l1 ih => exact fun k h => ih _ (valueDistinct_innerFold s1 snap _ h)

end Combine

/-- Claim C4: for every ordered pair of sentences `(A, B)` in `knowledge` at
the start of the Combine step with `A.cells` a strict subset of `B.cells`, a
sentence with cells `B.cells − A.cells` and count `B.count − A.count` is
present (by value) in `knowledge` afterwards; and no value-duplicate is ever
introduced (the "unless already present" guard). -/
theorem c4_combine_derives_difference (st : MinesweeperAI) (A B : Sentence)
    (hA : A ∈ st.knowledge) (hB : B ∈ st.knowledge)
    (hss : ssubsetB A.cells B.cells = true) :
    (∃ S ∈ (st.infer_new_sentences).knowledge,
        sentEqB S { cells := diffC B.cells A.cells,
                    count := B.count - A.count } = true) ∧
    (valueDistinct st.knowledge →
      valueDistinct (st.infer_new_sentences).knowledge) := by
  constructor
  · exact presentB_outerFold st.knowledge st.knowledge hB hss st.knowledge hA
  · intro h
    exact valueDistinct_outerFold st.knowledge st.knowledge st.knowledge h

/-- Witness for C4: combining `{cells':' {p,q}, count':' 1}` with
`{cells':' {p,q,r}, count':' 2}` yields `{cells':' {r}, count':' 1}` (here
`p = (0,0)`, `q = (0,1)`, `r = (0,2)`). -/
theorem c4_combine_derives_difference_witness :
    let A : Sentence := { cells := [(0, 0), (0, 1)], count := 1 }
    let B : Sentence := { cells := [(0, 0), (0, 1), (0, 2)], count := 2 }
    let st : MinesweeperAI :=
      { height := 1, width := 3, moves_made := [], mines := [], safes := [],
        knowledge := [A, B] }
    ∃ S ∈ (st.infer_new_sentences).knowledge,
      sentEqB S { cells := [(0, 2)], count := 1 } = true := by
  intro A B st
  have h := (c4_combine_derives_difference st A B (by decide) (by decide)
    (by decide)).1
  have hc : diffC B.cells A.cells = [(0, 2)] := by decide
  have hn : B.count - A.count = 1 := by decide
  rw [hc, hn] at h
  exact h

section MarkCells

theorem mem_markMine_cells {s : Sentence} {c d : Cell} (h : s.cells.Nodup) :
    d ∈ (s.mark_mine c).cells ↔ d ∈ s.cells ∧ d ≠ c := by
  by_cases hc : c ∈ s.cells
  · rw [Sentence.mark_mine_of_mem hc]
    simpa [and_comm] using h.mem_erase_iff (b := c) (a := d)
  · rw [Sentence.mark_mine_of_not_mem hc]
    constructor
    · intro hd
      exact ⟨hd, fun hdc => hc (hdc ▸ hd)⟩
    · exact And.left

theorem mem_markSafe_cells {s : Sentence} {c d : Cell} (h : s.cells.Nodup) :
    d ∈ (s.mark_safe c).cells ↔ d ∈ s.cells ∧ d ≠ c := by
  by_cases hc : c ∈ s.cells
  · rw [Sentence.mark_safe_of_mem hc]
    simpa [and_comm] using h.mem_erase_iff (b := c) (a := d)
  · rw [Sentence.mark_safe_of_not_mem hc]
    constructor
    · intro hd
      exact ⟨hd, fun hdc => hc (hdc ▸ hd)⟩
    · exact And.left

theorem markMine_cells_subset (s : Sentence) (c : Cell) :
    (s.mark_mine c).cells ⊆ s.cells := by
  unfold Sentence.mark_mine
  split
  · exact List.erase_subset _ _
  · exact fun _ h => h

theorem markSafe_cells_subset (s : Sentence) (c : Cell) :
    (s.mark_safe c).cells ⊆ s.cells := by
  unfold Sentence.mark_safe
  split
  · exact List.erase_subset _ _
  · exact fun _ h => h

theorem markMine_cells_nodup {s : Sentence} (c : Cell) (h : s.cells.Nodup) :
    (s.mark_mine c).cells.Nodup := by
  unfold Sentence.mark_mine
  split
  · exact h.erase c
  · exact h

theorem markSafe_cells_nodup {s : Sentence} (c : Cell) (h : s.cells.Nodup) :
    (s.mark_safe c).cells.Nodup := by
  unfold Sentence.mark_safe
  split
  · exact h.erase c
  · exact h

theorem neighbouring_cells_nodup (height width : Int) (cell : Cell) :
    (neighbouring_cells height width cell).Nodup := by
  apply List.Nodup.filter
  obtain ⟨a, b⟩ := cell
  simp only [List.flatMap_cons, List.flatMap_nil, List.map_cons, List.map_nil,
    List.append_nil, List.cons_append, List.nil_append]
  simp [List.nodup_cons, List.mem_cons, Prod.ext_iff]
  omega

theorem neighbouring_cells_not_self (height width : Int) (cell : Cell) :
    cell ∉ neighbouring_cells height width cell := by
  intro h
  unfold neighbouring_cells at h
  have := (List.mem_filter.mp h).2
  simp at this

end MarkCells

section StateInvariant

theorem StInv_markMine (st : MinesweeperAI) (c : Cell) (h : StInv st) :
    StInv (st.mark_mine c) := by
  intro s' hs'
  obtain ⟨s, hs, rfl⟩ := List.mem_map.mp hs'
  obtain ⟨hnd, hmem⟩ := h s hs
  refine ⟨markMine_cells_nodup c hnd, ?_⟩
  intro d hd
  obtain ⟨hd', hne⟩ := (mem_markMine_cells hnd).mp hd
  obtain ⟨hm, hsf⟩ := hmem d hd'
  exact ⟨fun hin => (mem_insertC.mp hin).elim hne hm, hsf⟩

theorem StInv_markSafe (st : MinesweeperAI) (c : Cell) (h : StInv st) :
    StInv (st.mark_safe c) := by
  intro s' hs'
  obtain ⟨s, hs, rfl⟩ := List.mem_map.mp hs'
  obtain ⟨hnd, hmem⟩ := h s hs
  refine ⟨markSafe_cells_nodup c hnd, ?_⟩
  intro d hd
  obtain ⟨hd', hne⟩ := (mem_markSafe_cells hnd).mp hd
  obtain ⟨hm, hsf⟩ := hmem d hd'
  exact ⟨hm, fun hin => (mem_insertC.mp hin).elim hne hsf⟩

theorem StInv_foldMarkMine (l : List Cell) :
    ∀ st : MinesweeperAI, StInv st →
      StInv (l.foldl (fun a c => a.mark_mine c) st) := by
  induction l with
  | nil => exact fun st h => h
  | cons c l ih => exact fun st h => ih _ (StInv_markMine st c h)

theorem StInv_foldMarkSafe (l : List Cell) :
    ∀ st : MinesweeperAI, StInv st →
      StInv (l.foldl (fun a c => a.mark_safe c) st) := by
  induction l with
  | nil => exact fun st h => h
  | cons c l ih => exact fun st h => ih _ (StInv_markSafe st c h)

theorem StInv_refreshOne (v : Sentence) (acc : MinesweeperAI)
    (h : StInv acc) : StInv (refreshOne acc v) :=
  StInv_foldMarkSafe _ _ (StInv_foldMarkMine _ _ h)

theorem StInv_foldRefresh (l : List Sentence) :
    ∀ st : MinesweeperAI, StInv st → StInv (l.foldl refreshOne st) := by
  induction l with
  | nil => exact fun st h => h
  | cons v l ih => exact fun st h => ih _ (StInv_refreshOne v st h)

theorem StInv_refresh (st : MinesweeperAI) (h : StInv st) :
    StInv st.refresh_knowledge :=
  StInv_foldRefresh st.knowledge st h

theorem mem_removeStep {k : List Sentence} {v s : Sentence}
    (h : s ∈ removeStep k v) : s ∈ k := by
  unfold removeStep at h
  split at h
  · exact List.mem_of_mem_eraseP h
  · exact h

theorem mem_foldRemove {s : Sentence} (l : List Sentence) :
    ∀ k : List Sentence, s ∈ l.foldl removeStep k → s ∈ k := by
  induction l with
  | nil => exact fun k h => h
  | cons v l ih => exact fun k h => mem_removeStep (ih _ h)

theorem StInv_removeStale (st : MinesweeperAI) (h : StInv st) :
    StInv st.remove_stale_sentences := by
  intro s hs
  exact h s (mem_foldRemove st.knowledge st.knowledge hs)

theorem mem_inferStep {s1 s2 s : Sentence} {k : List Sentence}
    (h : s ∈ inferStep s1 k s2) :
    s ∈ k ∨ (ssubsetB s1.cells s2.cells = true ∧ s = combined s1 s2) := by
  unfold inferStep appendNew at h
  split at h
  · rename_i hss
    split at h
    · exact Or.inl h
    · rcases List.mem_append.mp h with h' | h'
      · exact Or.inl h'
      · exact Or.inr ⟨hss, List.mem_singleton.mp h'⟩
  · exact Or.inl h

theorem mem_innerFold {s1 s : Sentence} (l : List Sentence) :
    ∀ k : List Sentence, s ∈ l.foldl (inferStep s1) k →
      s ∈ k ∨ ∃ s2 ∈ l, ssubsetB s1.cells s2.cells = true ∧
        s = combined s1 s2 := by
  induction l with
  | nil => exact fun k h => Or.inl h
  | cons s2 l ih =>
    intro k h
    rcases ih _ h with h' | ⟨t, ht, hss, rfl⟩
    · rcases mem_inferStep h' with h'' | ⟨hss, rfl⟩
      · exact Or.inl h''
      · exact Or.inr ⟨s2, List.mem_cons_self _ _, hss, rfl⟩
    · exact Or.inr ⟨t, List.mem_cons_of_mem _ ht, hss, rfl⟩

theorem mem_outerFold {s : Sentence} (snap : List Sentence)
    (l1 : List Sentence) :
    ∀ k : List Sentence,
      s ∈ l1.foldl (fun k1 t1 => snap.foldl (inferStep t1) k1) k →
      s ∈ k ∨ ∃ s1 ∈ l1, ∃ s2 ∈ snap, ssubsetB s1.cells s2.cells = true ∧
        s = combined s1 s2 := by
  induction l1 with
  | nil => exact fun k h => Or.inl h
  | cons t1 l1 ih =>
    intro k h
    rcases ih _ h with h' | ⟨u, hu, t, ht, hss, rfl⟩
    · rcases mem_innerFold snap _ h' with h'' | ⟨s2, hs2, hss, rfl⟩
      · exact Or.inl h''
      · exact Or.inr ⟨t1, List.mem_cons_self _ _, s2, hs2, hss, rfl⟩
    · exact Or.inr ⟨u, List.mem_cons_of_mem _ hu, t, ht, hss, rfl⟩

theorem mem_infer_knowledge {st : MinesweeperAI} {s : Sentence}
    (h : s ∈ (st.infer_new_sentences).knowledge) :
    s ∈ st.knowledge ∨
      ∃ s1 ∈ st.knowledge, ∃ s2 ∈ st.knowledge,
        ssubsetB s1.cells s2.cells = true ∧ s = combined s1 s2 :=
  mem_outerFold st.knowledge st.knowledge st.knowledge h

theorem CellsOK_combined {mines safes : List Cell} {s1 s2 : Sentence}
    (h2 : CellsOK mines safes s2) : CellsOK mines safes (combined s1 s2) := by
  refine ⟨h2.1.filter _, ?_⟩
  intro c hc
  exact h2.2 c (mem_diffC.mp hc).1

theorem StInv_infer (st : MinesweeperAI) (h : StInv st) :
    StInv st.infer_new_sentences := by
  intro s hs
  rcases mem_infer_knowledge hs with h' | ⟨s1, _, s2, hs2, _, rfl⟩
  · exact h s h'
  · exact CellsOK_combined (h s2 hs2)

theorem StInv_loopStep (st : MinesweeperAI) (h : StInv st) :
    StInv (loopStep st) :=
  StInv_infer _ (StInv_removeStale _ (StInv_refresh _ h))

theorem loopGo_succ (n : Nat) (st : MinesweeperAI) :
    loopGo (n + 1) st =
      if listEqB (loopStep st).knowledge st.knowledge then
        (loopStep st, ExitKind.quiescent)
      else if 50 < (loopStep st).knowledge.length then
        (loopStep st, ExitKind.cap)
      else loopGo n (loopStep st) := rfl

theorem StInv_loopGo (fuel : Nat) :
    ∀ st : MinesweeperAI, StInv st → StInv (loopGo fuel st).1 := by
  induction fuel with
  | zero => exact fun st h => h
  | succ n ih =>
    intro st h
    rw [loopGo_succ]
    split
    · exact StInv_loopStep st h
    · split
      · exact StInv_loopStep st h
      · exact ih _ (StInv_loopStep st h)

theorem foldMineS_cells_subset (l : List Cell) :
    ∀ s : Sentence,
      (l.foldl (fun a c => a.mark_mine c) s).cells ⊆ s.cells := by
  induction l with
  | nil => exact fun s _ h => h
  | cons c l ih =>
    exact fun s d hd => markMine_cells_subset s c (ih (s.mark_mine c) hd)

theorem foldSafeS_cells_subset (l : List Cell) :
    ∀ s : Sentence,
      (l.foldl (fun a c => a.mark_safe c) s).cells ⊆ s.cells := by
  induction l with
  | nil => exact fun s _ h => h
  | cons c l ih =>
    exact fun s d hd => markSafe_cells_subset s c (ih (s.mark_safe c) hd)

theorem foldMineS_cells_nodup (l : List Cell) :
    ∀ s : Sentence, s.cells.Nodup →
      (l.foldl (fun a c => a.mark_mine c) s).cells.Nodup := by
  induction l with
  | nil => exact fun s h => h
  | cons c l ih => exact fun s h => ih _ (markMine_cells_nodup c h)

theorem foldSafeS_cells_nodup (l : List Cell) :
    ∀ s : Sentence, s.cells.Nodup →
      (l.foldl (fun a c => a.mark_safe c) s).cells.Nodup := by
  induction l with
  | nil => exact fun s h => h
  | cons c l ih => exact fun s h => ih _ (markSafe_cells_nodup c h)

theorem foldMineS_removes (l : List Cell) :
    ∀ s : Sentence, s.cells.Nodup →
      ∀ c ∈ l, c ∉ (l.foldl (fun a c => a.mark_mine c) s).cells := by
  induction l with
  | nil => intro s _ c hc; cases hc
  | cons c0 l ih =>
    intro s hnd c hc
    rcases List.mem_cons.mp hc with rfl | hc'
    · intro hmem
      have := foldMineS_cells_subset l (s.mark_mine c) hmem
      exact ((mem_markMine_cells hnd).mp this).2 rfl
    · exact ih _ (markMine_cells_nodup c0 hnd) c hc'

theorem foldSafeS_removes (l : List Cell) :
    ∀ s : Sentence, s.cells.Nodup →
      ∀ c ∈ l, c ∉ (l.foldl (fun a c => a.mark_safe c) s).cells := by
  induction l with
  | nil => intro s _ c hc; cases hc
  | cons c0 l ih =>
    intro s hnd c hc
    rcases List.mem_cons.mp hc with rfl | hc'
    · intro hmem
      have := foldSafeS_cells_subset l (s.mark_safe c) hmem
      exact ((mem_markSafe_cells hnd).mp this).2 rfl
    · exact ih _ (markSafe_cells_nodup c0 hnd) c hc'

theorem StInv_addKnowledge (fuel : Nat) (st : MinesweeperAI) (cell : Cell)
    (count : Int) (h : StInv st) :
    StInv (st.add_knowledge fuel cell count).1 := by
  unfold MinesweeperAI.add_knowledge
  apply StInv_loopGo
  have h2 : StInv (MinesweeperAI.mark_safe
      { st with moves_made := insertC cell st.moves_made } cell) :=
    StInv_markSafe _ cell h
  intro s hs
  rcases List.mem_append.mp hs with h' | h'
  · exact h2 s h'
  · rw [List.mem_singleton.mp h']
    set st2 := MinesweeperAI.mark_safe
      { st with moves_made := insertC cell st.moves_made } cell with hst2
    set s0 : Sentence := { cells := neighbouring_cells st.height st.width cell,
                           count := count } with hs0
    have hnd0 : s0.cells.Nodup := neighbouring_cells_nodup _ _ _
    have hnd1 : (st2.mines.foldl (fun a c => a.mark_mine c) s0).cells.Nodup :=
      foldMineS_cells_nodup _ _ hnd0
    refine ⟨foldSafeS_cells_nodup _ _ hnd1, ?_⟩
    intro c hc
    constructor
    · intro hcm
      have hsub := foldSafeS_cells_subset st2.safes _ hc
      exact foldMineS_removes st2.mines s0 hnd0 c hcm hsub
    · intro hcs
      exact foldSafeS_removes st2.safes _ hnd1 c hcs hc

/-- The invariant holds for a fresh engine. -/
theorem StInv_init (height width : Int) : StInv (MinesweeperAI.init height width) := by
  intro s hs
  cases hs

theorem StInv_runTrace_aux (fuel : Nat) (moves : List (Cell × Int)) :
    ∀ acc : MinesweeperAI × Bool, StInv acc.1 →
      StInv (moves.foldl
        (fun acc p =>
          let r := MinesweeperAI.add_knowledge fuel acc.1 p.1 p.2
          (r.1, acc.2 && decide (r.2 ≠ ExitKind.fuelOut))) acc).1 := by
  induction moves with
  | nil => exact fun acc h => h
  | cons m moves ih =>
    intro acc h
    exact ih
      ((MinesweeperAI.add_knowledge fuel acc.1 m.1 m.2).1,
        acc.2 && decide
          ((MinesweeperAI.add_knowledge fuel acc.1 m.1 m.2).2 ≠ ExitKind.fuelOut))
      (StInv_addKnowledge fuel acc.1 m.1 m.2 h)

theorem StInv_runTrace (fuel : Nat) (moves : List (Cell × Int))
    (st : MinesweeperAI) (h : StInv st) : StInv (runTrace fuel st moves).1 :=
  StInv_runTrace_aux fuel moves (st, true) h

end StateInvariant

/-- Claim C10: after any sequence of `add_knowledge` calls on a fresh engine
(with arbitrary coordinates and counts), every sentence remaining in
`knowledge` has cells disjoint from both `mines` and `safes`. -/
theorem c10_live_disjoint_from_marked (height width : Int) (fuel : Nat)
    (moves : List (Cell × Int)) :
    ∀ s ∈ (runTrace fuel (MinesweeperAI.init height width) moves).1.knowledge,
      ∀ c ∈ s.cells,
        c ∉ (runTrace fuel (MinesweeperAI.init height width) moves).1.mines ∧
        c ∉ (runTrace fuel (MinesweeperAI.init height width) moves).1.safes := by
  intro s hs c hc
  have h := StInv_runTrace fuel moves (MinesweeperAI.init height width)
    (StInv_init height width)
  exact (h s hs).2 c hc

/-- Witness for C10 at a concrete trace: after revealing `(0,0)` with count 1
on a 3×3 board, the surviving sentence's cell `(0,1)` is in neither `mines`
nor `safes`. -/
theorem c10_live_disjoint_from_marked_witness :
    ((0 : Int), (1 : Int)) ∉
      (runTrace 5 (MinesweeperAI.init 3 3) [((0, 0), 1)]).1.mines ∧
    ((0 : Int), (1 : Int)) ∉
      (runTrace 5 (MinesweeperAI.init 3 3) [((0, 0), 1)]).1.safes :=
  c10_live_disjoint_from_marked 3 3 5 [((0, 0), 1)]
    { cells := [(0, 1), (1, 0), (1, 1)], count := 1 } (by decide)
    (0, 1) (by decide)

section SentenceTruth

theorem perm_cons_erase_cell {c : Cell} {l : List Cell} (h : c ∈ l) :
    l.Perm (c :: l.erase c) := by
  induction l with
  | nil => cases h
  | cons a l ih =>
    by_cases hac : a = c
    · subst hac
      rw [List.erase_cons_head]
    · rw [List.erase_cons_tail (by simpa using fun e => hac e)]
      have hc : c ∈ l := by
        rcases List.mem_cons.mp h with h' | h'
        · exact absurd h'.symm hac
        · exact h'
      exact (List.Perm.cons a (ih hc)).trans (List.Perm.swap c a _)

theorem TrueS_markMine {M : List Cell} {s : Sentence} {c : Cell}
    (h : TrueS M s) (hc : c ∈ M) : TrueS M (s.mark_mine c) := by
  by_cases hm : c ∈ s.cells
  · rw [Sentence.mark_mine_of_mem hm]
    unfold TrueS at h ⊢
    simp only
    have hperm := (perm_cons_erase_cell hm).filter (fun x => decide (x ∈ M))
    have hlen := hperm.length_eq
    rw [List.filter_cons_of_pos (by simpa using hc)] at hlen
    simp only [List.length_cons] at hlen
    omega
  · rw [Sentence.mark_mine_of_not_mem hm]
    exact h

theorem TrueS_markSafe {M : List Cell} {s : Sentence} {c : Cell}
    (h : TrueS M s) (hc : c ∉ M) : TrueS M (s.mark_safe c) := by
  by_cases hm : c ∈ s.cells
  · rw [Sentence.mark_safe_of_mem hm]
    unfold TrueS at h ⊢
    simp only
    have hperm := (perm_cons_erase_cell hm).filter (fun x => decide (x ∈ M))
    have hlen := hperm.length_eq
    rw [List.filter_cons_of_neg (by simpa using hc)] at hlen
    omega
  · rw [Sentence.mark_safe_of_not_mem hm]
    exact h

theorem TrueS_full_all_mem {M : List Cell} {s : Sentence} (h : TrueS M s)
    (hfull : (s.cells.length : Int) = s.count) : ∀ c ∈ s.cells, c ∈ M := by
  unfold TrueS at h
  have hlen : (s.cells.filter fun c => decide (c ∈ M)).length =
      s.cells.length := by omega
  have heq : s.cells.filter (fun c => decide (c ∈ M)) = s.cells :=
    (List.filter_sublist s.cells).eq_of_length hlen
  intro c hc
  simpa using List.filter_eq_self.mp heq c hc

theorem TrueS_zero_none_mem {M : List Cell} {s : Sentence} (h : TrueS M s)
    (hz : s.count = 0) : ∀ c ∈ s.cells, c ∉ M := by
  unfold TrueS at h
  rw [hz] at h
  have hlen : (s.cells.filter fun c => decide (c ∈ M)).length = 0 := by omega
  have heq := List.length_eq_zero.mp hlen
  intro c hc hcM
  have : c ∈ s.cells.filter (fun c => decide (c ∈ M)) :=
    List.mem_filter.mpr ⟨hc, by simpa using hcM⟩
  rw [heq] at this
  cases this

theorem known_mines_mem_M {M : List Cell} {s : Sentence} (h : TrueS M s) :
    ∀ c ∈ s.known_mines, c ∈ M := by
  unfold Sentence.known_mines
  split
  · exact TrueS_full_all_mem h (by assumption)
  · intro c hc
    cases hc

theorem known_safes_not_mem_M {M : List Cell} {s : Sentence} (h : TrueS M s) :
    ∀ c ∈ s.known_safes, c ∉ M := by
  unfold Sentence.known_safes
  split
  · exact TrueS_zero_none_mem h (by assumption)
  · intro c hc
    cases hc

theorem length_filter_split (P Q : Cell → Bool) (l : List Cell) :
    (l.filter P).length =
      (l.filter fun c => P c && Q c).length +
      (l.filter fun c => P c && !Q c).length := by
  induction l with
  | nil => rfl
  | cons a l ih =>
    by_cases hP : P a
    · by_cases hQ : Q a <;>
        simp [List.filter_cons, hP, hQ, ih] <;> omega
    · simp [List.filter_cons, hP, ih]

theorem length_eq_of_nodup_mem_iff {l1 l2 : List Cell} (h1 : l1.Nodup)
    (h2 : l2.Nodup) (h : ∀ c, c ∈ l1 ↔ c ∈ l2) : l1.length = l2.length := by
  have hfs : l1.toFinset = l2.toFinset := by
    ext c
    simpa using h c
  calc l1.length = l1.toFinset.card := (List.toFinset_card_of_nodup h1).symm
    _ = l2.toFinset.card := by rw [hfs]
    _ = l2.length := List.toFinset_card_of_nodup h2

theorem TrueS_combined {M : List Cell} {s1 s2 : Sentence} (h1 : TrueS M s1)
    (h2 : TrueS M s2) (hn1 : s1.cells.Nodup) (hn2 : s2.cells.Nodup)
    (hsub : ∀ c ∈ s1.cells, c ∈ s2.cells) : TrueS M (combined s1 s2) := by
  unfold TrueS at h1 h2 ⊢
  unfold combined diffC
  simp only
  have hsplit := length_filter_split (fun c => decide (c ∈ M))
    (fun c => decide (c ∈ s1.cells)) s2.cells
  have hpart1 : (s2.cells.filter fun c =>
      decide (c ∈ M) && decide (c ∈ s1.cells)).length =
      (s1.cells.filter fun c => decide (c ∈ M)).length := by
    apply length_eq_of_nodup_mem_iff (hn2.filter _) (hn1.filter _)
    intro c
    simp only [List.mem_filter, Bool.and_eq_true, decide_eq_true_eq]
    constructor
    · rintro ⟨_, hM, hs1⟩
      exact ⟨hs1, hM⟩
    · rintro ⟨hs1, hM⟩
      exact ⟨hsub c hs1, hM, hs1⟩
  have hpart2 : ((s2.cells.filter fun c => decide (c ∉ s1.cells)).filter
      fun c => decide (c ∈ M)).length =
      (s2.cells.filter fun c => decide (c ∈ M) && !decide (c ∈ s1.cells)).length := by
    rw [List.filter_filter]
    apply congrArg
    apply List.filter_congr
    intro c _
    simp [Bool.and_comm]
  rw [hpart2]
  omega

theorem TrueS_foldMine {M : List Cell} (l : List Cell) (hl : ∀ c ∈ l, c ∈ M) :
    ∀ s : Sentence, TrueS M s →
      TrueS M (l.foldl (fun a c => a.mark_mine c) s) := by
  induction l with
  | nil => exact fun s h => h
  | cons c l ih =>
    intro s h
    exact ih (fun d hd => hl d (List.mem_cons_of_mem _ hd)) _
      (TrueS_markMine h (hl c (List.mem_cons_self _ _)))

theorem TrueS_foldSafe {M : List Cell} (l : List Cell) (hl : ∀ c ∈ l, c ∉ M) :
    ∀ s : Sentence, TrueS M s →
      TrueS M (l.foldl (fun a c => a.mark_safe c) s) := by
  induction l with
  | nil => exact fun s h => h
  | cons c l ih =>
    intro s h
    exact ih (fun d hd => hl d (List.mem_cons_of_mem _ hd)) _
      (TrueS_markSafe h (hl c (List.mem_cons_self _ _)))

end SentenceTruth

section Soundness

theorem SoundM_markMine {M : List Cell} {st : MinesweeperAI} {c : Cell}
    (hc : c ∈ M) (h : SoundM M st) : SoundM M (st.mark_mine c) := by
  obtain ⟨hmines, hsafes, hsent⟩ := h
  refine ⟨?_, hsafes, ?_⟩
  · intro d hd
    rcases mem_insertC.mp hd with rfl | hd'
    · exact hc
    · exact hmines d hd'
  · intro s' hs'
    obtain ⟨s, hs, rfl⟩ := List.mem_map.mp hs'
    obtain ⟨hnd, htr⟩ := hsent s hs
    exact ⟨markMine_cells_nodup c hnd, TrueS_markMine htr hc⟩

theorem SoundM_markSafe {M : List Cell} {st : MinesweeperAI} {c : Cell}
    (hc : c ∉ M) (h : SoundM M st) : SoundM M (st.mark_safe c) := by
  obtain ⟨hmines, hsafes, hsent⟩ := h
  refine ⟨hmines, ?_, ?_⟩
  · intro d hd
    rcases mem_insertC.mp hd with rfl | hd'
    · exact hc
    · exact hsafes d hd'
  · intro s' hs'
    obtain ⟨s, hs, rfl⟩ := List.mem_map.mp hs'
    obtain ⟨hnd, htr⟩ := hsent s hs
    exact ⟨markSafe_cells_nodup c hnd, TrueS_markSafe htr hc⟩

theorem SoundM_foldMarkMineAI {M : List Cell} (l : List Cell)
    (hl : ∀ c ∈ l, c ∈ M) :
    ∀ st : MinesweeperAI, SoundM M st →
      SoundM M (l.foldl (fun a c => a.mark_mine c) st) := by
  induction l with
  | nil => exact fun st h => h
  | cons c l ih =>
    intro st h
    exact ih (fun d hd => hl d (List.mem_cons_of_mem _ hd)) _
      (SoundM_markMine (hl c (List.mem_cons_self _ _)) h)

theorem SoundM_foldMarkSafeAI {M : List Cell} (l : List Cell)
    (hl : ∀ c ∈ l, c ∉ M) :
    ∀ st : MinesweeperAI, SoundM M st →
      SoundM M (l.foldl (fun a c => a.mark_safe c) st) := by
  induction l with
  | nil => exact fun st h => h
  | cons c l ih =>
    intro st h
    exact ih (fun d hd => hl d (List.mem_cons_of_mem _ hd)) _
      (SoundM_markSafe (hl c (List.mem_cons_self _ _)) h)

theorem SoundM_refreshOne {M : List Cell} {v : Sentence}
    (hv : TrueS M v) (acc : MinesweeperAI) (h : SoundM M acc) :
    SoundM M (refreshOne acc v) :=
  SoundM_foldMarkSafeAI _ (known_safes_not_mem_M hv) _
    (SoundM_foldMarkMineAI _ (known_mines_mem_M hv) _ h)

theorem SoundM_foldRefresh {M : List Cell} (l : List Sentence)
    (hl : ∀ v ∈ l, TrueS M v) :
    ∀ st : MinesweeperAI, SoundM M st → SoundM M (l.foldl refreshOne st) := by
  induction l with
  | nil => exact fun st h => h
  | cons v l ih =>
    intro st h
    exact ih (fun u hu => hl u (List.mem_cons_of_mem _ hu)) _
      (SoundM_refreshOne (hl v (List.mem_cons_self _ _)) st h)

theorem SoundM_refresh {M : List Cell} (st : MinesweeperAI)
    (h : SoundM M st) : SoundM M st.refresh_knowledge :=
  SoundM_foldRefresh st.knowledge (fun v hv => (h.2.2 v hv).2) st h

theorem SoundM_removeStale {M : List Cell} (st : MinesweeperAI)
    (h : SoundM M st) : SoundM M st.remove_stale_sentences := by
  obtain ⟨hmines, hsafes, hsent⟩ := h
  exact ⟨hmines, hsafes,
    fun s hs => hsent s (mem_foldRemove st.knowledge st.knowledge hs)⟩

theorem SoundM_infer {M : List Cell} (st : MinesweeperAI)
    (h : SoundM M st) : SoundM M st.infer_new_sentences := by
  obtain ⟨hmines, hsafes, hsent⟩ := h
  refine ⟨hmines, hsafes, ?_⟩
  intro s hs
  rcases mem_infer_knowledge hs with h' | ⟨s1, hs1, s2, hs2, hss, rfl⟩
  · exact hsent s h'
  · obtain ⟨hnd1, htr1⟩ := hsent s1 hs1
    obtain ⟨hnd2, htr2⟩ := hsent s2 hs2
    have hsub : ∀ c ∈ s1.cells, c ∈ s2.cells := by
      have := (Bool.and_eq_true _ _).mp hss
      exact subsetB_iff.mp this.1
    exact ⟨hnd2.filter _, TrueS_combined htr1 htr2 hnd1 hnd2 hsub⟩

theorem SoundM_loopStep {M : List Cell} (st : MinesweeperAI)
    (h : SoundM M st) : SoundM M (loopStep st) :=
  SoundM_infer _ (SoundM_removeStale _ (SoundM_refresh _ h))

theorem SoundM_loopGo {M : List Cell} (fuel : Nat) :
    ∀ st : MinesweeperAI, SoundM M st → SoundM M (loopGo fuel st).1 := by
  induction fuel with
  | zero => exact fun st h => h
  | succ n ih =>
    intro st h
    rw [loopGo_succ]
    split
    · exact SoundM_loopStep st h
    · split
      · exact SoundM_loopStep st h
      · exact ih _ (SoundM_loopStep st h)

theorem SoundM_addKnowledge {M : List Cell} (fuel : Nat)
    (st : MinesweeperAI) (cell : Cell) (count : Int) (hcell : cell ∉ M)
    (hcount : count = trueCount st.height st.width M cell)
    (h : SoundM M st) : SoundM M (st.add_knowledge fuel cell count).1 := by
  unfold MinesweeperAI.add_knowledge
  apply SoundM_loopGo
  have h2 : SoundM M (MinesweeperAI.mark_safe
      { st with moves_made := insertC cell st.moves_made } cell) :=
    SoundM_markSafe hcell h
  obtain ⟨hmines, hsafes, hsent⟩ := h2
  refine ⟨hmines, hsafes, ?_⟩
  intro s hs
  rcases List.mem_append.mp hs with h' | h'
  · exact hsent s h'
  · rw [List.mem_singleton.mp h']
    set st2 := MinesweeperAI.mark_safe
      { st with moves_made := insertC cell st.moves_made } cell with hst2
    set s0 : Sentence := { cells := neighbouring_cells st.height st.width cell,
                           count := count } with hs0
    have hnd0 : s0.cells.Nodup := neighbouring_cells_nodup _ _ _
    have htr0 : TrueS M s0 := by
      rw [hs0]
      show count = ((List.filter (fun c => decide (c ∈ M))
        (neighbouring_cells st.height st.width cell)).length : Int)
      rw [hcount]
      rfl
    constructor
    · exact foldSafeS_cells_nodup _ _ (foldMineS_cells_nodup _ _ hnd0)
    · exact TrueS_foldSafe st2.safes hsafes _
        (TrueS_foldMine st2.mines hmines _ htr0)

theorem SoundM_init (height width : Int) (M : List Cell) :
    SoundM M (MinesweeperAI.init height width) := by
  refine ⟨?_, ?_, ?_⟩ <;> intro x hx <;> cases hx

end Soundness

section DimPreservation

theorem HW_markMine {h w : Int} {st : MinesweeperAI} (c : Cell)
    (hhw : HW h w st) : HW h w (st.mark_mine c) := hhw

theorem HW_markSafe {h w : Int} {st : MinesweeperAI} (c : Cell)
    (hhw : HW h w st) : HW h w (st.mark_safe c) := hhw

theorem HW_foldMarkMine {h w : Int} (l : List Cell) :
    ∀ st : MinesweeperAI, HW h w st →
      HW h w (l.foldl (fun a c => a.mark_mine c) st) := by
  induction l with
  | nil => exact fun st hh => hh
  | cons c l ih => exact fun st hh => ih _ (HW_markMine c hh)

theorem HW_foldMarkSafe {h w : Int} (l : List Cell) :
    ∀ st : MinesweeperAI, HW h w st →
      HW h w (l.foldl (fun a c => a.mark_safe c) st) := by
  induction l with
  | nil => exact fun st hh => hh
  | cons c l ih => exact fun st hh => ih _ (HW_markSafe c hh)

theorem HW_refreshOne {h w : Int} (v : Sentence) (st : MinesweeperAI)
    (hhw : HW h w st) : HW h w (refreshOne st v) :=
  HW_foldMarkSafe _ _ (HW_foldMarkMine _ _ hhw)

theorem HW_foldRefresh {h w : Int} (l : List Sentence) :
    ∀ st : MinesweeperAI, HW h w st → HW h w (l.foldl refreshOne st) := by
  induction l with
  | nil => exact fun st hh => hh
  | cons v l ih => exact fun st hh => ih _ (HW_refreshOne v st hh)

theorem HW_loopStep {h w : Int} (st : MinesweeperAI) (hhw : HW h w st) :
    HW h w (loopStep st) :=
  HW_foldRefresh st.knowledge st hhw

theorem HW_loopGo {h w : Int} (fuel : Nat) :
    ∀ st : MinesweeperAI, HW h w st → HW h w (loopGo fuel st).1 := by
  induction fuel with
  | zero => exact fun st hh => hh
  | succ n ih =>
    intro st hh
    rw [loopGo_succ]
    split
    · exact HW_loopStep st hh
    · split
      · exact HW_loopStep st hh
      · exact ih _ (HW_loopStep st hh)

theorem HW_addKnowledge {h w : Int} (fuel : Nat) (st : MinesweeperAI)
    (cell : Cell) (count : Int) (hhw : HW h w st) :
    HW h w (st.add_knowledge fuel cell count).1 := by
  unfold MinesweeperAI.add_knowledge
  exact HW_loopGo fuel _ hhw

theorem HW_applyOp {h w : Int} (fuel : Nat) (st : MinesweeperAI)
    (op : EngineOp) (hhw : HW h w st) : HW h w (applyOp fuel st op) := by
  cases op with
  | addK cell count => exact HW_addKnowledge fuel st cell count hhw
  | recordMine cell => exact HW_markMine cell hhw
  | recordSafe cell => exact HW_markSafe cell hhw

end DimPreservation

section HonestRuns

theorem SoundM_runOps {h w : Int} {M : List Cell} (fuel : Nat)
    (ops : List EngineOp) :
    ∀ st : MinesweeperAI, HW h w st → SoundM M st →
      (∀ op ∈ ops, HonestOp h w M op) →
      HW h w (runOps fuel ops st) ∧ SoundM M (runOps fuel ops st) := by
  induction ops with
  | nil => exact fun st hh hs _ => ⟨hh, hs⟩
  | cons op ops ih =>
    intro st hh hs hops
    have hop := hops op (List.mem_cons_self _ _)
    have hrest : ∀ o ∈ ops, HonestOp h w M o :=
      fun o ho => hops o (List.mem_cons_of_mem _ ho)
    have hh' : HW h w (applyOp fuel st op) := HW_applyOp fuel st op hh
    have hs' : SoundM M (applyOp fuel st op) := by
      cases op with
      | addK cell count =>
        obtain ⟨hcell, hcount⟩ := hop
        exact SoundM_addKnowledge fuel st cell count hcell
          (by rw [hh.1, hh.2]; exact hcount) hs
      | recordMine cell => exact SoundM_markMine hop hs
      | recordSafe cell => exact SoundM_markSafe hop hs
    exact ih _ hh' hs' hrest

end HonestRuns

/-- Claim C2 (amended): along any sequence of honest engine operations — each
recorded fact reports the true count for a hazard-free revealed cell, each
direct hazard/safe record is truthful — every sentence in `knowledge`
satisfies `0 ≤ count ≤ |cells|` at every observable point. -/
theorem c2_count_bounds_honest (height width : Int) (M : List Cell)
    (fuel : Nat) (ops : List EngineOp)
    (hops : ∀ op ∈ ops, HonestOp height width M op) :
    ∀ s ∈ (runOps fuel ops (MinesweeperAI.init height width)).knowledge,
      0 ≤ s.count ∧ s.count ≤ (s.cells.length : Int) := by
  intro s hs
  have h := (SoundM_runOps fuel ops (MinesweeperAI.init height width)
    ⟨rfl, rfl⟩ (SoundM_init height width M) hops).2
  have htr := (h.2.2 s hs).2
  unfold TrueS at htr
  have hle : (s.cells.filter fun c => decide (c ∈ M)).length ≤
      s.cells.length := List.length_filter_le _ _
  omega

/-- Witness for C2 (amended) at a concrete honest run. -/
theorem c2_count_bounds_honest_witness :
    0 ≤ (1 : Int) ∧ (1 : Int) ≤
      (([((0 : Int), (1 : Int)), (1, 0), (1, 1)] : List Cell).length : Int) :=
  c2_count_bounds_honest 3 3 [(0, 1)] 5 [EngineOp.addK (0, 0) 1]
    (by
      intro op hop
      rw [List.mem_singleton.mp hop]
      exact ⟨by decide, by decide⟩)
    { cells := [(0, 1), (1, 0), (1, 1)], count := 1 } (by decide)

/-- Claim C2's counterexample: a trace whose counts are all true for the
fixed placement `c2M` (count-only honesty, as in the claim's precondition),
after which a sentence with `count = -1 < 0` is observable in `knowledge` at
the final `add_knowledge` return. -/
theorem c2_count_only_honesty_violation :
    honestCountsB 1 5 c2M c2Trace = true ∧
    (runTrace 10 (MinesweeperAI.init 1 5) c2Trace).2 = true ∧
    countBoundsViolationB (runTrace 10 (MinesweeperAI.init 1 5) c2Trace).1 =
      true := by
  refine ⟨by decide, by decide, by decide⟩

/-- Claim C3 (amended): along any sequence of honest engine operations, the
sets `mines` and `safes` are disjoint at every observable point. -/
theorem c3_disjoint_honest_ops (height width : Int) (M : List Cell)
    (fuel : Nat) (ops : List EngineOp)
    (hops : ∀ op ∈ ops, HonestOp height width M op) :
    ∀ c ∈ (runOps fuel ops (MinesweeperAI.init height width)).mines,
      c ∉ (runOps fuel ops (MinesweeperAI.init height width)).safes := by
  intro c hc hcs
  have h := (SoundM_runOps fuel ops (MinesweeperAI.init height width)
    ⟨rfl, rfl⟩ (SoundM_init height width M) hops).2
  exact h.2.1 c hcs (h.1 c hc)

/-- Witness for C3 (amended): an honest run in which `(0,2)` is deduced to be
a hazard, and is indeed not in `safes`. -/
theorem c3_disjoint_honest_ops_witness :
    ((0 : Int), (2 : Int)) ∉
      (runOps 5 [EngineOp.addK (0, 1) 1, EngineOp.addK (0, 0) 0]
        (MinesweeperAI.init 1 3)).safes :=
  c3_disjoint_honest_ops 1 3 [(0, 2)] 5
    [EngineOp.addK (0, 1) 1, EngineOp.addK (0, 0) 0]
    (by
      intro op hop
      rcases List.mem_cons.mp hop with rfl | hop'
      · exact ⟨by decide, by decide⟩
      · rw [List.mem_singleton.mp hop']
        exact ⟨by decide, by decide⟩)
    (0, 2) (by decide)

/-- Claim C9 (amended): `add_knowledge` performs no input validation — a call
with any negative count is accepted, the fixpoint loop exits normally, and a
sentence with negative count (violating `0 ≤ count ≤ |cells|`) is left in
`knowledge`. Shown for the representative call `(0,0)` on a fresh 8×8 engine. -/
theorem c9_negative_count_accepted (count : Int) (fuel : Nat)
    (hneg : count < 0) (hfuel : 0 < fuel) :
    ((MinesweeperAI.init 8 8).add_knowledge fuel (0, 0) count).2 =
        ExitKind.quiescent ∧
    ∃ s ∈ ((MinesweeperAI.init 8 8).add_knowledge fuel (0, 0) count).1.knowledge,
      s.count < 0 := by
  obtain ⟨n, rfl⟩ : ∃ n, fuel = n + 1 := ⟨fuel - 1, by omega⟩
  set s0 : Sentence :=
    { cells := [(0, 1), (1, 0), (1, 1)], count := count } with hs0
  set st3 : MinesweeperAI :=
    { height := 8, width := 8, moves_made := [(0, 0)], mines := [],
      safes := [(0, 0)], knowledge := [s0] } with hst3
  have h1 : (MinesweeperAI.init 8 8).add_knowledge (n + 1) (0, 0) count =
      loopGo (n + 1) st3 := rfl
  have hkm : s0.known_mines = [] := by
    unfold Sentence.known_mines
    rw [if_neg]
    intro hcontra
    rw [show s0.cells.length = 3 from rfl,
        show s0.count = count from rfl] at hcontra
    omega
  have hks : s0.known_safes = [] := by
    unfold Sentence.known_safes
    rw [if_neg]
    intro hcontra
    rw [show s0.count = count from rfl] at hcontra
    exact absurd hcontra (by omega)
  have hrefresh : st3.refresh_knowledge = st3 := by
    unfold MinesweeperAI.refresh_knowledge
    show List.foldl refreshOne st3 [s0] = st3
    simp only [List.foldl_cons, List.foldl_nil]
    unfold refreshOne
    rw [hkm, hks]
    rfl
  have hremove : st3.remove_stale_sentences = st3 := rfl
  have hinfer : st3.infer_new_sentences = st3 := by
    unfold MinesweeperAI.infer_new_sentences
    simp only [List.foldl_cons, List.foldl_nil]
    unfold inferStep
    rw [if_neg]
    show ¬(ssubsetB [((0 : Int), (1 : Int)), (1, 0), (1, 1)]
      [((0 : Int), (1 : Int)), (1, 0), (1, 1)] = true)
    decide
  have hstep : loopStep st3 = st3 := by
    unfold loopStep
    rw [hrefresh, hremove, hinfer]
  have h2 : loopGo (n + 1) st3 = (st3, ExitKind.quiescent) := by
    rw [loopGo_succ, hstep, if_pos (listEqB_refl _)]
  rw [h1, h2]
  exact ⟨rfl, s0, List.mem_cons_self _ _, hneg⟩

/-- Witness for C9 (amended) at `count = -3`, `fuel = 5`. -/
theorem c9_negative_count_accepted_witness :
    ((MinesweeperAI.init 8 8).add_knowledge 5 (0, 0) (-3)).2 =
        ExitKind.quiescent ∧
    ∃ s ∈ ((MinesweeperAI.init 8 8).add_knowledge 5 (0, 0) (-3)).1.knowledge,
      s.count < 0 :=
  c9_negative_count_accepted (-3) 5 (by decide) (by decide)

section NodupKnowledge

theorem nodupK_markMine {st : MinesweeperAI} (c : Cell) (h : nodupK st) :
    nodupK (st.mark_mine c) := by
  intro s' hs'
  obtain ⟨s, hs, rfl⟩ := List.mem_map.mp hs'
  exact markMine_cells_nodup c (h s hs)

theorem nodupK_markSafe {st : MinesweeperAI} (c : Cell) (h : nodupK st) :
    nodupK (st.mark_safe c) := by
  intro s' hs'
  obtain ⟨s, hs, rfl⟩ := List.mem_map.mp hs'
  exact markSafe_cells_nodup c (h s hs)

theorem nodupK_foldMine (l : List Cell) :
    ∀ st : MinesweeperAI, nodupK st →
      nodupK (l.foldl (fun a c => a.mark_mine c) st) := by
  induction l with
  | nil => exact fun st h => h
  | cons c l ih => exact fun st h => ih _ (nodupK_markMine c h)

theorem nodupK_foldSafe (l : List Cell) :
    ∀ st : MinesweeperAI, nodupK st →
      nodupK (l.foldl (fun a c => a.mark_safe c) st) := by
  induction l with
  | nil => exact fun st h => h
  | cons c l ih => exact fun st h => ih _ (nodupK_markSafe c h)

theorem nodupK_refreshOne (v : Sentence) (st : MinesweeperAI)
    (h : nodupK st) : nodupK (refreshOne st v) :=
  nodupK_foldSafe _ _ (nodupK_foldMine _ _ h)

theorem nodupK_foldRefresh (l : List Sentence) :
    ∀ st : MinesweeperAI, nodupK st → nodupK (l.foldl refreshOne st) := by
  induction l with
  | nil => exact fun st h => h
  | cons v l ih => exact fun st h => ih _ (nodupK_refreshOne v st h)

theorem nodupK_refresh (st : MinesweeperAI) (h : nodupK st) :
    nodupK st.refresh_knowledge :=
  nodupK_foldRefresh st.knowledge st h

theorem nodupK_removeStale (st : MinesweeperAI) (h : nodupK st) :
    nodupK st.remove_stale_sentences :=
  fun s hs => h s (mem_foldRemove st.knowledge st.knowledge hs)

theorem nodupK_infer (st : MinesweeperAI) (h : nodupK st) :
    nodupK st.infer_new_sentences := by
  intro s hs
  rcases mem_infer_knowledge hs with h' | ⟨s1, _, s2, hs2, _, rfl⟩
  · exact h s h'
  · exact (h s2 hs2).filter _

theorem nodupK_loopStep (st : MinesweeperAI) (h : nodupK st) :
    nodupK (loopStep st) :=
  nodupK_infer _ (nodupK_removeStale _ (nodupK_refresh _ h))

end NodupKnowledge

section RefreshMarks

theorem marksLe_refl (st : MinesweeperAI) : marksLe st st :=
  ⟨fun _ h => h, fun _ h => h⟩

theorem marksLe_trans {a b c : MinesweeperAI} (h1 : marksLe a b)
    (h2 : marksLe b c) : marksLe a c :=
  ⟨fun d hd => h2.1 d (h1.1 d hd), fun d hd => h2.2 d (h1.2 d hd)⟩

theorem marksLe_markMine (st : MinesweeperAI) (c : Cell) :
    marksLe st (st.mark_mine c) :=
  ⟨fun _ hd => mem_insertC_of_mem c hd, fun _ hd => hd⟩

theorem marksLe_markSafe (st : MinesweeperAI) (c : Cell) :
    marksLe st (st.mark_safe c) :=
  ⟨fun _ hd => hd, fun _ hd => mem_insertC_of_mem c hd⟩

theorem marksLe_foldMine (l : List Cell) :
    ∀ st : MinesweeperAI, marksLe st (l.foldl (fun a c => a.mark_mine c) st) := by
  induction l with
  | nil => exact fun st => marksLe_refl st
  | cons c l ih =>
    exact fun st => marksLe_trans (marksLe_markMine st c) (ih _)

theorem marksLe_foldSafe (l : List Cell) :
    ∀ st : MinesweeperAI, marksLe st (l.foldl (fun a c => a.mark_safe c) st) := by
  induction l with
  | nil => exact fun st => marksLe_refl st
  | cons c l ih =>
    exact fun st => marksLe_trans (marksLe_markSafe st c) (ih _)

theorem marksLe_refreshOne (v : Sentence) (st : MinesweeperAI) :
    marksLe st (refreshOne st v) :=
  marksLe_trans (marksLe_foldMine _ st) (marksLe_foldSafe _ _)

theorem marksLe_foldRefresh (l : List Sentence) :
    ∀ st : MinesweeperAI, marksLe st (l.foldl refreshOne st) := by
  induction l with
  | nil => exact fun st => marksLe_refl st
  | cons v l ih =>
    exact fun st => marksLe_trans (marksLe_refreshOne v st) (ih _)

theorem foldMine_mem (l : List Cell) :
    ∀ st : MinesweeperAI, ∀ c ∈ l,
      c ∈ (l.foldl (fun a c => a.mark_mine c) st).mines := by
  induction l with
  | nil => intro st c hc; cases hc
  | cons c0 l ih =>
    intro st c hc
    rcases List.mem_cons.mp hc with rfl | hc'
    · exact (marksLe_foldMine l _).1 c (self_mem_insertC c _)
    · exact ih _ c hc'

theorem foldSafe_mem (l : List Cell) :
    ∀ st : MinesweeperAI, ∀ c ∈ l,
      c ∈ (l.foldl (fun a c => a.mark_safe c) st).safes := by
  induction l with
  | nil => intro st c hc; cases hc
  | cons c0 l ih =>
    intro st c hc
    rcases List.mem_cons.mp hc with rfl | hc'
    · exact (marksLe_foldSafe l _).2 c (self_mem_insertC c _)
    · exact ih _ c hc'

theorem refreshOne_marks (v : Sentence) (st : MinesweeperAI) :
    (∀ c ∈ v.known_mines, c ∈ (refreshOne st v).mines) ∧
    (∀ c ∈ v.known_safes, c ∈ (refreshOne st v).safes) := by
  constructor
  · intro c hc
    exact (marksLe_foldSafe _ _).1 c (foldMine_mem _ st c hc)
  · intro c hc
    exact foldSafe_mem _ _ c hc

theorem foldRefresh_marks (l : List Sentence) :
    ∀ st : MinesweeperAI, ∀ v ∈ l,
      (∀ c ∈ v.known_mines, c ∈ (l.foldl refreshOne st).mines) ∧
      (∀ c ∈ v.known_safes, c ∈ (l.foldl refreshOne st).safes) := by
  induction l with
  | nil => intro st v hv; cases hv
  | cons v0 l ih =>
    intro st v hv
    rcases List.mem_cons.mp hv with rfl | hv'
    · constructor
      · intro c hc
        exact (marksLe_foldRefresh l _).1 c ((refreshOne_marks v st).1 c hc)
      · intro c hc
        exact (marksLe_foldRefresh l _).2 c ((refreshOne_marks v st).2 c hc)
    · exact ih _ v hv'

theorem refresh_marks (st : MinesweeperAI) :
    ∀ v ∈ st.knowledge,
      (∀ c ∈ v.known_mines, c ∈ st.refresh_knowledge.mines) ∧
      (∀ c ∈ v.known_safes, c ∈ st.refresh_knowledge.safes) :=
  foldRefresh_marks st.knowledge st

theorem removeStale_mines (st : MinesweeperAI) :
    st.remove_stale_sentences.mines = st.mines := rfl

theorem removeStale_safes (st : MinesweeperAI) :
    st.remove_stale_sentences.safes = st.safes := rfl

theorem infer_mines (st : MinesweeperAI) :
    st.infer_new_sentences.mines = st.mines := rfl

theorem infer_safes (st : MinesweeperAI) :
    st.infer_new_sentences.safes = st.safes := rfl

end RefreshMarks

section Quiescence

theorem listEqB_mem :
    ∀ k1 k2 : List Sentence, listEqB k1 k2 = true →
      ∀ s ∈ k1, ∃ v ∈ k2, sentEqB s v = true := by
  intro k1
  induction k1 with
  | nil => intro k2 _ s hs; cases hs
  | cons s0 k1 ih =>
    intro k2 h s hs
    cases k2 with
    | nil => cases h
    | cons v0 k2 =>
      have h' := (Bool.and_eq_true _ _).mp h
      rcases List.mem_cons.mp hs with rfl | hs'
      · exact ⟨v0, List.mem_cons_self _ _, h'.1⟩
      · obtain ⟨v, hv, hsv⟩ := ih k2 h'.2 s hs'
        exact ⟨v, List.mem_cons_of_mem _ hv, hsv⟩

/-- After a pass that leaves `knowledge` unchanged by value, every sentence
with `count = 0` has all its cells flagged safe, and every sentence with
`count = |cells|` has all its cells flagged as mines. -/
theorem quiescent_pass_marks (st : MinesweeperAI) (hwk : nodupK st)
    (heq : listEqB (loopStep st).knowledge st.knowledge = true) :
    ∀ s ∈ (loopStep st).knowledge,
      (s.count = 0 → ∀ c ∈ s.cells, c ∈ (loopStep st).safes) ∧
      ((s.cells.length : Int) = s.count →
        ∀ c ∈ s.cells, c ∈ (loopStep st).mines) := by
  intro s hs
  obtain ⟨v, hv, hsv⟩ := listEqB_mem _ _ heq s hs
  obtain ⟨⟨hsub1, hsub2⟩, hcnt⟩ := sentEqB_iff.mp hsv
  have hmarks := refresh_marks st v hv
  have hsafes_eq : (loopStep st).safes = st.refresh_knowledge.safes := rfl
  have hmines_eq : (loopStep st).mines = st.refresh_knowledge.mines := rfl
  constructor
  · intro hz c hc
    have hvz : v.count = 0 := hcnt ▸ hz
    have hks : v.known_safes = v.cells := by
      unfold Sentence.known_safes
      rw [if_pos hvz]
    rw [hsafes_eq]
    exact hmarks.2 c (hks ▸ hsub1 c hc)
  · intro hfull c hc
    have hnds : s.cells.Nodup :=
      nodupK_loopStep st hwk s hs
    have hndv : v.cells.Nodup := hwk v hv
    have hlen : s.cells.length = v.cells.length :=
      length_eq_of_nodup_mem_iff hnds hndv
        (fun d => ⟨fun hd => hsub1 d hd, fun hd => hsub2 d hd⟩)
    have hvfull : (v.cells.length : Int) = v.count := by
      rw [← hlen, ← hcnt]
      exact hfull
    have hkm : v.known_mines = v.cells := by
      unfold Sentence.known_mines
      rw [if_pos hvfull]
    rw [hmines_eq]
    exact hmarks.1 c (hkm ▸ hsub1 c hc)

/-- A quiescent exit of the fixpoint loop comes from a pass that left
`knowledge` unchanged by value from some intermediate (still duplicate-free)
state. -/
theorem loopGo_quiescent (fuel : Nat) :
    ∀ st : MinesweeperAI, nodupK st →
      (loopGo fuel st).2 = ExitKind.quiescent →
      ∃ p : MinesweeperAI, nodupK p ∧
        (loopGo fuel st).1 = loopStep p ∧
        listEqB (loopStep p).knowledge p.knowledge = true := by
  induction fuel with
  | zero =>
    intro st _ h
    cases h
  | succ n ih =>
    intro st hwk h
    rw [loopGo_succ] at h ⊢
    by_cases h1 : listEqB (loopStep st).knowledge st.knowledge = true
    · rw [if_pos h1] at h ⊢
      exact ⟨st, hwk, rfl, h1⟩
    · rw [if_neg h1] at h ⊢
      by_cases h2 : 50 < (loopStep st).knowledge.length
      · rw [if_pos h2] at h
        cases h
      · rw [if_neg h2] at h ⊢
        exact ih _ (nodupK_loopStep st hwk) h

end Quiescence

/-- Claim C1 (amended): whenever an `add_knowledge` call's fixpoint loop exits
by value-equality quiescence, no sentence in `knowledge` has `count = 0` with
non-empty cells not all flagged safe, and none has `count = |cells|` with
non-empty cells not all flagged as mines — stated both as the membership
property and as the executable checker `derivableLeftB`. -/
theorem c1_quiescent_no_derivable_fact (st : MinesweeperAI) (cell : Cell)
    (count : Int) (fuel : Nat) (hwk : nodupK st)
    (hq : (st.add_knowledge fuel cell count).2 = ExitKind.quiescent) :
    (∀ s ∈ (st.add_knowledge fuel cell count).1.knowledge,
      (s.count = 0 →
        ∀ c ∈ s.cells, c ∈ (st.add_knowledge fuel cell count).1.safes) ∧
      ((s.cells.length : Int) = s.count →
        ∀ c ∈ s.cells, c ∈ (st.add_knowledge fuel cell count).1.mines)) ∧
    derivableLeftB (st.add_knowledge fuel cell count).1 = false := by
  set st2 := MinesweeperAI.mark_safe
    { st with moves_made := insertC cell st.moves_made } cell with hst2
  set s2 := st2.safes.foldl (fun (s : Sentence) (c : Cell) => s.mark_safe c)
    (st2.mines.foldl (fun (s : Sentence) (c : Cell) => s.mark_mine c)
      ({ cells := neighbouring_cells st.height st.width cell,
         count := count } : Sentence)) with hs2def
  have hak : st.add_knowledge fuel cell count =
      loopGo fuel { st2 with knowledge := st2.knowledge ++ [s2] } := rfl
  have hwk3 : nodupK { st2 with knowledge := st2.knowledge ++ [s2] } := by
    intro s hs
    rcases List.mem_append.mp hs with h' | h'
    · exact nodupK_markSafe cell hwk s h'
    · rw [List.mem_singleton.mp h', hs2def]
      exact foldSafeS_cells_nodup _ _
        (foldMineS_cells_nodup _ _ (neighbouring_cells_nodup _ _ _))
  rw [hak] at hq ⊢
  obtain ⟨p, hp, hres, heq⟩ := loopGo_quiescent fuel _ hwk3 hq
  have hmain : ∀ s ∈ (loopGo fuel
        { st2 with knowledge := st2.knowledge ++ [s2] }).1.knowledge,
      (s.count = 0 → ∀ c ∈ s.cells, c ∈ (loopGo fuel
        { st2 with knowledge := st2.knowledge ++ [s2] }).1.safes) ∧
      ((s.cells.length : Int) = s.count → ∀ c ∈ s.cells, c ∈ (loopGo fuel
        { st2 with knowledge := st2.knowledge ++ [s2] }).1.mines) := by
    rw [hres]
    exact quiescent_pass_marks p hp heq
  refine ⟨hmain, ?_⟩
  rw [show derivableLeftB (loopGo fuel
      { st2 with knowledge := st2.knowledge ++ [s2] }).1 =
    (loopGo fuel { st2 with knowledge := st2.knowledge ++ [s2] }).1.knowledge.any
      (fun s =>
        ((s.count == 0) && !s.cells.isEmpty &&
          !(subsetB s.cells (loopGo fuel
            { st2 with knowledge := st2.knowledge ++ [s2] }).1.safes)) ||
        (((s.cells.length : Int) == s.count) && !s.cells.isEmpty &&
          !(subsetB s.cells (loopGo fuel
            { st2 with knowledge := st2.knowledge ++ [s2] }).1.mines)))
    from rfl]
  rw [List.any_eq_false]
  intro s hs
  obtain ⟨hzero, hfull⟩ := hmain s hs
  simp only [Bool.not_eq_true]
  rw [Bool.or_eq_false_iff]
  constructor
  · by_cases hz : s.count = 0
    · rw [Bool.and_eq_false_iff]
      right
      rw [Bool.not_eq_false', subsetB_iff]
      intro c hc
      exact hzero hz c hc
    · rw [Bool.and_eq_false_iff, Bool.and_eq_false_iff]
      left
      left
      simpa using hz
  · by_cases hf : (s.cells.length : Int) = s.count
    · rw [Bool.and_eq_false_iff]
      right
      rw [Bool.not_eq_false', subsetB_iff]
      intro c hc
      exact hfull hf c hc
    · rw [Bool.and_eq_false_iff, Bool.and_eq_false_iff]
      left
      left
      simpa using hf

/-- Witness for C1 (amended): revealing `(1,1)` with count 0 on a 3×3 board
exits quiescently, and the checker finds no unextracted derivable fact. -/
theorem c1_quiescent_no_derivable_fact_witness :
    derivableLeftB
      ((MinesweeperAI.init 3 3).add_knowledge 5 (1, 1) 0).1 = false :=
  (c1_quiescent_no_derivable_fact (MinesweeperAI.init 3 3) (1, 1) 0 5
    (by intro s hs; cases hs) (by decide)).2


section CapCounterexample

theorem add_knowledge_eq_loopGo (fuel : Nat) (st : MinesweeperAI)
    (cell : Cell) (count : Int) :
    MinesweeperAI.add_knowledge fuel st cell count =
      loopGo fuel (buildStart st cell count) := rfl

theorem inferInner_id_of_no_pairs (s1 : Sentence) (l : List Sentence)
    (h : ∀ s2 ∈ l, ssubsetB s1.cells s2.cells = false) :
    ∀ k : List Sentence, l.foldl (inferStep s1) k = k := by
  induction l with
  | nil => exact fun k => rfl
  | cons s2 l ih =>
    intro k
    rw [List.foldl_cons]
    have hs2 : inferStep s1 k s2 = k := by
      unfold inferStep
      rw [if_neg]
      rw [h s2 (List.mem_cons_self _ _)]
      exact Bool.false_ne_true
    rw [hs2]
    exact ih (fun u hu => h u (List.mem_cons_of_mem _ hu)) k

theorem inferOuter_id_of_no_pairs (snap : List Sentence)
    (l1 : List Sentence)
    (h : ∀ s1 ∈ l1, ∀ s2 ∈ snap, ssubsetB s1.cells s2.cells = false) :
    ∀ k : List Sentence,
      l1.foldl (fun k1 s1 => snap.foldl (inferStep s1) k1) k = k := by
  induction l1 with
  | nil => exact fun k => rfl
  | cons s1 l1 ih =>
    intro k
    rw [List.foldl_cons]
    rw [inferInner_id_of_no_pairs s1 snap (h s1 (List.mem_cons_self _ _)) k]
    exact ih (fun u hu => h u (List.mem_cons_of_mem _ hu)) k

theorem infer_id_of_no_pairs (st : MinesweeperAI)
    (h : (st.knowledge.all fun s1 =>
      st.knowledge.all fun s2 => !(ssubsetB s1.cells s2.cells)) = true) :
    st.infer_new_sentences = st := by
  have h' : ∀ s1 ∈ st.knowledge, ∀ s2 ∈ st.knowledge,
      ssubsetB s1.cells s2.cells = false := by
    rw [List.all_eq_true] at h
    intro s1 hs1 s2 hs2
    have := List.all_eq_true.mp (h s1 hs1) s2 hs2
    simpa using this
  unfold MinesweeperAI.infer_new_sentences
  rw [inferOuter_id_of_no_pairs st.knowledge st.knowledge h' st.knowledge]

theorem uniformLen_no_pairs (k : List Sentence)
    (h : uniformLenB k = true) :
    (k.all fun s1 => k.all fun s2 => !(ssubsetB s1.cells s2.cells)) = true := by
  rw [List.all_eq_true]
  intro s1 hs1
  rw [List.all_eq_true]
  intro s2 hs2
  cases k with
  | nil => cases hs1
  | cons s0 rest =>
    unfold uniformLenB at h
    rw [List.all_eq_true] at h
    obtain ⟨hl1, hn1⟩ := (Bool.and_eq_true _ _).mp (h s1 hs1)
    obtain ⟨hl2, hn2⟩ := (Bool.and_eq_true _ _).mp (h s2 hs2)
    have hlen : s1.cells.length = s2.cells.length :=
      (eq_of_beq hl1).trans (eq_of_beq hl2).symm
    have hnd1 : s1.cells.Nodup := of_decide_eq_true hn1
    rw [Bool.not_eq_true']
    unfold ssubsetB
    cases h12 : subsetB s1.cells s2.cells with
    | false => rfl
    | true =>
      have hsub : ∀ c ∈ s1.cells, c ∈ s2.cells := subsetB_iff.mp h12
      have hsub2 : ∀ c ∈ s2.cells, c ∈ s1.cells := by
        intro x hx2
        by_contra hx1
        have hnd : (x :: s1.cells).Nodup := List.nodup_cons.mpr ⟨hx1, hnd1⟩
        have hsubs : ∀ y ∈ x :: s1.cells, y ∈ s2.cells := by
          intro y hy
          rcases List.mem_cons.mp hy with rfl | hy'
          · exact hx2
          · exact hsub y hy'
        have hc1 := List.toFinset_card_of_nodup hnd
        have hc2 := List.toFinset_card_le s2.cells
        have hc3 : (x :: s1.cells).toFinset ⊆ s2.cells.toFinset := by
          intro y hy
          rw [List.mem_toFinset] at hy ⊢
          exact hsubs y hy
        have hc4 := Finset.card_le_card hc3
        rw [List.length_cons] at hc1
        omega
      rw [subsetB_iff.mpr hsub2]
      rfl

theorem callCheck_sound (st : MinesweeperAI) (cell : Cell) (count : Int)
    (res : MinesweeperAI) (e : ExitKind) (fuel : Nat) (hf : 0 < fuel)
    (h : callCheckB st cell count res e = true) :
    MinesweeperAI.add_knowledge fuel st cell count = (res, e) := by
  obtain ⟨n, rfl⟩ : ∃ n, fuel = n + 1 := ⟨fuel - 1, by omega⟩
  unfold callCheckB at h
  obtain ⟨h12, h3⟩ := (Bool.and_eq_true _ _).mp h
  obtain ⟨h1, h2⟩ := (Bool.and_eq_true _ _).mp h12
  have hres : res = ((buildStart st cell count).refresh_knowledge).remove_stale_sentences :=
    of_decide_eq_true h2
  have h1' : ((((buildStart st cell count).refresh_knowledge).remove_stale_sentences).knowledge.all
      fun s1 =>
        (((buildStart st cell count).refresh_knowledge).remove_stale_sentences).knowledge.all
          fun s2 => !(ssubsetB s1.cells s2.cells)) = true := by
    rcases (Bool.or_eq_true _ _).mp h1 with h' | h'
    · exact uniformLen_no_pairs _ h'
    · exact h'
  have hstep : loopStep (buildStart st cell count) =
      ((buildStart st cell count).refresh_knowledge).remove_stale_sentences := by
    unfold loopStep
    exact infer_id_of_no_pairs _ h1'
  rw [add_knowledge_eq_loopGo, loopGo_succ, hstep]
  cases e with
  | quiescent =>
    rw [if_pos h3, hres]
  | cap =>
    obtain ⟨h4, h5⟩ := (Bool.and_eq_true _ _).mp h3
    rw [Bool.not_eq_true' ] at h4
    rw [if_neg (by rw [h4]; exact Bool.false_ne_true),
        if_pos (of_decide_eq_true h5), hres]
  | fuelOut => cases h3

theorem FinalOf_state_irrel :
    ∀ (l : List ((Cell × Int) × MinesweeperAI × ExitKind))
      (st : MinesweeperAI) (e e' : ExitKind),
      (FinalOf st e l).1 = (FinalOf st e' l).1 := by
  intro l
  induction l with
  | nil => intro st e e'; rfl
  | cons t rest ih => intro st e e'; exact ih t.2.1 t.2.2 t.2.2

theorem foldF_cons (fuel : Nat) (t : (Cell × Int) × MinesweeperAI × ExitKind)
    (rest : List ((Cell × Int) × MinesweeperAI × ExitKind))
    (st : MinesweeperAI) (b : Bool) (e : ExitKind)
    (hstep : MinesweeperAI.add_knowledge fuel st t.1.1 t.1.2 = (t.2.1, t.2.2))
    (hne : t.2.2 ≠ ExitKind.fuelOut) :
    List.foldl
      (fun acc p =>
        let r := MinesweeperAI.add_knowledge fuel acc.1 p.1 p.2
        (r.1, acc.2.1 && decide (r.2 ≠ ExitKind.fuelOut), r.2))
      (st, b, e) ((t :: rest).map Prod.fst) =
    List.foldl
      (fun acc p =>
        let r := MinesweeperAI.add_knowledge fuel acc.1 p.1 p.2
        (r.1, acc.2.1 && decide (r.2 ≠ ExitKind.fuelOut), r.2))
      (t.2.1, b, t.2.2) (rest.map Prod.fst) := by
  rw [List.map_cons, List.foldl_cons]
  congr 1
  show ((MinesweeperAI.add_knowledge fuel st t.1.1 t.1.2).1,
      b && decide ((MinesweeperAI.add_knowledge fuel st t.1.1 t.1.2).2 ≠
        ExitKind.fuelOut),
      (MinesweeperAI.add_knowledge fuel st t.1.1 t.1.2).2) =
    (t.2.1, b, t.2.2)
  rw [hstep]
  dsimp only
  rw [decide_eq_true hne, Bool.and_true]

theorem foldF_steps (fuel : Nat) (hf : 0 < fuel) :
    ∀ (l : List ((Cell × Int) × MinesweeperAI × ExitKind))
      (st : MinesweeperAI) (b : Bool) (e : ExitKind),
      stepsOK2B st l = true →
      (∀ t ∈ l, t.2.2 ≠ ExitKind.fuelOut) →
      List.foldl
        (fun acc p =>
          let r := MinesweeperAI.add_knowledge fuel acc.1 p.1 p.2
          (r.1, acc.2.1 && decide (r.2 ≠ ExitKind.fuelOut), r.2))
        (st, b, e) (l.map Prod.fst) =
        ((FinalOf st e l).1, b, (FinalOf st e l).2) := by
  intro l
  induction l with
  | nil => intro st b e _ _; rfl
  | cons t rest ih =>
    intro st b e hok hex
    unfold stepsOK2B at hok
    obtain ⟨h1, h2⟩ := (Bool.and_eq_true _ _).mp hok
    have hstep : MinesweeperAI.add_knowledge fuel st t.1.1 t.1.2 =
        (t.2.1, t.2.2) := callCheck_sound st t.1.1 t.1.2 t.2.1 t.2.2 fuel hf h1
    have hne : t.2.2 ≠ ExitKind.fuelOut := hex t (List.mem_cons_self _ _)
    rw [foldF_cons fuel t rest st b e hstep hne]
    have hfin : FinalOf st e (t :: rest) = FinalOf t.2.1 t.2.2 rest := rfl
    rw [hfin]
    exact ih t.2.1 b t.2.2 h2 (fun u hu => hex u (List.mem_cons_of_mem _ hu))

set_option maxRecDepth 4000 in
set_option maxHeartbeats 16000000 in
theorem c1_steps_ok : stepsOK2B (MinesweeperAI.init 1 160) c1Steps = true := by
  decide

end CapCounterexample


set_option maxRecDepth 20000 in
set_option maxHeartbeats 1000000 in
/-- Claim C1's counterexample: an honest trace of 52 `add_knowledge` calls on
a 1×160 board (every count true for the fixed placement `c1M`, every revealed
cell hazard-free), in which every call's loop exits properly, the final call
exits via the size cap, and at that final return the sentence
`{(0,151)} = 1` — an immediately-derivable hazard — remains in `knowledge`
unextracted, with `(0,151)` not in `mines`. -/
theorem c1_cap_exit_violation :
    honestStrongB 1 160 c1M c1Trace = true ∧
    runTraceX 5 (MinesweeperAI.init 1 160) c1Trace =
      (c1Sfin, true, ExitKind.cap) ∧
    derivableLeftB c1Sfin = true := by
  refine ⟨by decide, ?_, by decide⟩
  have htrace : c1Steps.map Prod.fst = c1Trace := by decide
  have hex : ∀ t ∈ c1Steps, t.2.2 ≠ ExitKind.fuelOut := by decide
  have hfin : FinalOf (MinesweeperAI.init 1 160) ExitKind.quiescent c1Steps =
      (c1Sfin, ExitKind.cap) := by decide
  have h := foldF_steps 5 (by omega) c1Steps (MinesweeperAI.init 1 160) true
    ExitKind.quiescent c1_steps_ok hex
  rw [htrace, hfin] at h
  exact h

section Termination

theorem mem_cellsUniverse {c : Cell} :
    ∀ {k : List Sentence}, c ∈ cellsUniverse k ↔ ∃ s ∈ k, c ∈ s.cells := by
  intro k
  induction k with
  | nil => simp [cellsUniverse]
  | cons s k ih =>
    unfold cellsUniverse at ih ⊢
    rw [List.foldr_cons, Finset.mem_union, ih]
    simp

theorem cellsUniverse_subset_of_mem {k1 k2 : List Sentence}
    (h : ∀ c, (∃ s ∈ k1, c ∈ s.cells) → ∃ s ∈ k2, c ∈ s.cells) :
    cellsUniverse k1 ⊆ cellsUniverse k2 := by
  intro c hc
  exact mem_cellsUniverse.mpr (h c (mem_cellsUniverse.mp hc))

theorem map_id_of_mem {f : Sentence → Sentence} :
    ∀ l : List Sentence, (∀ x ∈ l, f x = x) → l.map f = l := by
  intro l
  induction l with
  | nil => intro _; rfl
  | cons x l ih =>
    intro h
    rw [List.map_cons, h x (List.mem_cons_self _ _),
      ih (fun y hy => h y (List.mem_cons_of_mem _ hy))]

theorem dich_markMine (st : MinesweeperAI) (c : Cell) (hwk : nodupK st) :
    (st.mark_mine c).knowledge = st.knowledge ∨
      cellsUniverse (st.mark_mine c).knowledge ⊂
        cellsUniverse st.knowledge := by
  by_cases hc : c ∈ cellsUniverse st.knowledge
  · right
    have hsub : cellsUniverse (st.mark_mine c).knowledge ⊆
        cellsUniverse st.knowledge := by
      apply cellsUniverse_subset_of_mem
      rintro d ⟨s', hs', hd⟩
      obtain ⟨s, hs, rfl⟩ := List.mem_map.mp hs'
      exact ⟨s, hs, markMine_cells_subset s c hd⟩
    rw [Finset.ssubset_iff_of_subset hsub]
    refine ⟨c, hc, ?_⟩
    intro hcu
    obtain ⟨s', hs', hd⟩ := mem_cellsUniverse.mp hcu
    obtain ⟨s, hs, rfl⟩ := List.mem_map.mp hs'
    exact ((mem_markMine_cells (hwk s hs)).mp hd).2 rfl
  · left
    show st.knowledge.map (fun s => s.mark_mine c) = st.knowledge
    apply map_id_of_mem
    intro s hs
    apply Sentence.mark_mine_of_not_mem
    intro hcs
    exact hc (mem_cellsUniverse.mpr ⟨s, hs, hcs⟩)

theorem dich_markSafe (st : MinesweeperAI) (c : Cell) (hwk : nodupK st) :
    (st.mark_safe c).knowledge = st.knowledge ∨
      cellsUniverse (st.mark_safe c).knowledge ⊂
        cellsUniverse st.knowledge := by
  by_cases hc : c ∈ cellsUniverse st.knowledge
  · right
    have hsub : cellsUniverse (st.mark_safe c).knowledge ⊆
        cellsUniverse st.knowledge := by
      apply cellsUniverse_subset_of_mem
      rintro d ⟨s', hs', hd⟩
      obtain ⟨s, hs, rfl⟩ := List.mem_map.mp hs'
      exact ⟨s, hs, markSafe_cells_subset s c hd⟩
    rw [Finset.ssubset_iff_of_subset hsub]
    refine ⟨c, hc, ?_⟩
    intro hcu
    obtain ⟨s', hs', hd⟩ := mem_cellsUniverse.mp hcu
    obtain ⟨s, hs, rfl⟩ := List.mem_map.mp hs'
    exact ((mem_markSafe_cells (hwk s hs)).mp hd).2 rfl
  · left
    show st.knowledge.map (fun s => s.mark_safe c) = st.knowledge
    apply map_id_of_mem
    intro s hs
    apply Sentence.mark_safe_of_not_mem
    intro hcs
    exact hc (mem_cellsUniverse.mpr ⟨s, hs, hcs⟩)

theorem dich_fold {α : Type} (g : MinesweeperAI → α → MinesweeperAI)
    (hg : ∀ st a, nodupK st → ((g st a).knowledge = st.knowledge ∨
      cellsUniverse (g st a).knowledge ⊂ cellsUniverse st.knowledge))
    (hn : ∀ st a, nodupK st → nodupK (g st a)) :
    ∀ (l : List α) (st : MinesweeperAI), nodupK st →
      ((l.foldl g st).knowledge = st.knowledge ∨
        cellsUniverse (l.foldl g st).knowledge ⊂
          cellsUniverse st.knowledge) := by
  intro l
  induction l with
  | nil => exact fun st _ => Or.inl rfl
  | cons a l ih =>
    intro st hwk
    rw [List.foldl_cons]
    rcases ih (g st a) (hn st a hwk) with h1 | h1
    · rcases hg st a hwk with h2 | h2
      · exact Or.inl (h1.trans h2)
      · exact Or.inr (h1 ▸ h2)
    · rcases hg st a hwk with h2 | h2
      · exact Or.inr (h2 ▸ h1)
      · exact Or.inr (h1.trans h2)

theorem dich_comp {st1 st2 st3 : MinesweeperAI}
    (h1 : st2.knowledge = st1.knowledge ∨
      cellsUniverse st2.knowledge ⊂ cellsUniverse st1.knowledge)
    (h2 : st3.knowledge = st2.knowledge ∨
      cellsUniverse st3.knowledge ⊂ cellsUniverse st2.knowledge) :
    st3.knowledge = st1.knowledge ∨
      cellsUniverse st3.knowledge ⊂ cellsUniverse st1.knowledge := by
  rcases h2 with h2 | h2
  · rcases h1 with h1 | h1
    · exact Or.inl (h2.trans h1)
    · exact Or.inr (h2 ▸ h1)
  · rcases h1 with h1 | h1
    · exact Or.inr (h1 ▸ h2)
    · exact Or.inr (h2.trans h1)

theorem dich_refreshOne (st : MinesweeperAI) (v : Sentence)
    (hwk : nodupK st) :
    ((refreshOne st v).knowledge = st.knowledge ∨
      cellsUniverse (refreshOne st v).knowledge ⊂
        cellsUniverse st.knowledge) := by
  unfold refreshOne
  exact dich_comp
    (dich_fold (fun a c => a.mark_mine c)
      (fun s c h => dich_markMine s c h)
      (fun s c h => nodupK_markMine c h) _ st hwk)
    (dich_fold (fun a c => a.mark_safe c)
      (fun s c h => dich_markSafe s c h)
      (fun s c h => nodupK_markSafe c h) _ _
      (nodupK_foldMine _ st hwk))

theorem dich_refresh (st : MinesweeperAI) (hwk : nodupK st) :
    (st.refresh_knowledge.knowledge = st.knowledge ∨
      cellsUniverse st.refresh_knowledge.knowledge ⊂
        cellsUniverse st.knowledge) :=
  dich_fold refreshOne dich_refreshOne (fun s v h => nodupK_refreshOne v s h)
    st.knowledge st hwk

end Termination

section TerminationRemove

theorem sentEqB_empty {a v : Sentence} (hv : v.cells.isEmpty = true)
    (h : sentEqB a v = true) : a.cells.isEmpty = true := by
  obtain ⟨⟨hsub, _⟩, _⟩ := sentEqB_iff.mp h
  rw [List.isEmpty_iff] at hv ⊢
  rw [List.eq_nil_iff_forall_not_mem]
  intro c hc
  have := hsub c hc
  rw [hv] at this
  cases this

theorem removeStep_le (k : List Sentence) (v : Sentence) :
    (removeStep k v).countP (fun s => s.cells.isEmpty) ≤
      k.countP (fun s => s.cells.isEmpty) := by
  unfold removeStep
  split
  · by_cases hex : ∃ a ∈ k, sentEqB a v = true
    · obtain ⟨a, ha, hpa⟩ := hex
      obtain ⟨b, l1, l2, _, _, hk, he⟩ :=
        @List.exists_of_eraseP Sentence (fun s => sentEqB s v) k a ha hpa
      rw [he, hk]
      rw [List.countP_append, List.countP_append, List.countP_cons]
      omega
    · rw [List.eraseP_of_forall_not]
      intro a ha hcon
      exact hex ⟨a, ha, hcon⟩
  · exact Nat.le_refl _

theorem removeStep_strict (k : List Sentence) (v : Sentence)
    (h : removeStep k v ≠ k) :
    (removeStep k v).countP (fun s => s.cells.isEmpty) <
      k.countP (fun s => s.cells.isEmpty) := by
  unfold removeStep at h ⊢
  split at h
  · rename_i hve
    by_cases hex : ∃ a ∈ k, sentEqB a v = true
    · obtain ⟨a, ha, hpa⟩ := hex
      obtain ⟨b, l1, l2, _, hpb, hk, he⟩ :=
        @List.exists_of_eraseP Sentence (fun s => sentEqB s v) k a ha hpa
      have hbe : b.cells.isEmpty = true := sentEqB_empty hve hpb
      rw [if_pos hve, he, hk, List.countP_append, List.countP_append,
        List.countP_cons, hbe]
      simp
    · exfalso
      apply h
      apply List.eraseP_of_forall_not
      intro a ha hcon
      exact hex ⟨a, ha, hcon⟩
  · exact absurd rfl h

theorem foldRemove_le (l : List Sentence) :
    ∀ k : List Sentence,
      (l.foldl removeStep k).countP (fun s => s.cells.isEmpty) ≤
        k.countP (fun s => s.cells.isEmpty) := by
  induction l with
  | nil => exact fun k => Nat.le_refl _
  | cons v l ih =>
    intro k
    exact Nat.le_trans (ih (removeStep k v)) (removeStep_le k v)

theorem foldRemove_strict (l : List Sentence) :
    ∀ k : List Sentence, l.foldl removeStep k ≠ k →
      (l.foldl removeStep k).countP (fun s => s.cells.isEmpty) <
        k.countP (fun s => s.cells.isEmpty) := by
  induction l with
  | nil => exact fun k h => absurd rfl h
  | cons v l ih =>
    intro k h
    rw [List.foldl_cons] at h ⊢
    by_cases h1 : removeStep k v = k
    · rw [h1] at h ⊢
      exact ih k h
    · exact Nat.lt_of_le_of_lt (foldRemove_le l (removeStep k v))
        (removeStep_strict k v h1)

theorem removeStale_univ (st : MinesweeperAI) :
    cellsUniverse st.remove_stale_sentences.knowledge ⊆
      cellsUniverse st.knowledge := by
  apply cellsUniverse_subset_of_mem
  rintro c ⟨s, hs, hc⟩
  exact ⟨s, mem_foldRemove st.knowledge st.knowledge hs, hc⟩

end TerminationRemove

section TerminationInfer

theorem combined_not_empty {s1 s2 : Sentence}
    (hss : ssubsetB s1.cells s2.cells = true) :
    (combined s1 s2).cells.isEmpty = false := by
  unfold ssubsetB at hss
  obtain ⟨_, hns⟩ := (Bool.and_eq_true _ _).mp hss
  rw [Bool.not_eq_true'] at hns
  have : ¬ ∀ c ∈ s2.cells, c ∈ s1.cells := by
    intro hall
    rw [subsetB_iff.mpr hall] at hns
    cases hns
  push_neg at this
  obtain ⟨x, hx2, hx1⟩ := this
  have hxd : x ∈ (combined s1 s2).cells :=
    mem_diffC.mpr ⟨hx2, hx1⟩
  rcases hval : (combined s1 s2).cells with _ | ⟨a, l⟩
  · rw [hval] at hxd
    cases hxd
  · rfl

theorem inferStep_shape (s1 : Sentence) (k : List Sentence) (s2 : Sentence) :
    inferStep s1 k s2 = k ∨
      (ssubsetB s1.cells s2.cells = true ∧
        inferStep s1 k s2 = k ++ [combined s1 s2]) := by
  unfold inferStep appendNew
  split
  · rename_i hss
    split
    · exact Or.inl rfl
    · exact Or.inr ⟨hss, rfl⟩
  · exact Or.inl rfl

theorem innerFold_extra (s1 : Sentence) (l : List Sentence) :
    ∀ k : List Sentence, ∃ ex : List Sentence,
      l.foldl (inferStep s1) k = k ++ ex ∧
      ∀ s ∈ ex, ∃ s2 ∈ l, ssubsetB s1.cells s2.cells = true ∧
        s = combined s1 s2 := by
  induction l with
  | nil =>
    intro k
    exact ⟨[], (List.append_nil k).symm, fun s hs => absurd hs (by simp)⟩
  | cons s2 l ih =>
    intro k
    rw [List.foldl_cons]
    rcases inferStep_shape s1 k s2 with h | ⟨hss, h⟩
    · rw [h]
      obtain ⟨ex, hex, hprop⟩ := ih k
      exact ⟨ex, hex, fun s hs =>
        (hprop s hs).elim fun t ht =>
          ⟨t, List.mem_cons_of_mem _ ht.1, ht.2⟩⟩
    · rw [h]
      obtain ⟨ex, hex, hprop⟩ := ih (k ++ [combined s1 s2])
      refine ⟨combined s1 s2 :: ex, ?_, ?_⟩
      · rw [hex, List.append_assoc]
        rfl
      · intro s hs
        rcases List.mem_cons.mp hs with rfl | hs'
        · exact ⟨s2, List.mem_cons_self _ _, hss, rfl⟩
        · obtain ⟨t, ht, hprops⟩ := hprop s hs'
          exact ⟨t, List.mem_cons_of_mem _ ht, hprops⟩

theorem outerFold_extra (snap : List Sentence) (l1 : List Sentence) :
    ∀ k : List Sentence, ∃ ex : List Sentence,
      l1.foldl (fun k1 s1 => snap.foldl (inferStep s1) k1) k = k ++ ex ∧
      ∀ s ∈ ex, ∃ s1 ∈ l1, ∃ s2 ∈ snap,
        ssubsetB s1.cells s2.cells = true ∧ s = combined s1 s2 := by
  induction l1 with
  | nil =>
    intro k
    exact ⟨[], (List.append_nil k).symm, fun s hs => absurd hs (by simp)⟩
  | cons s1 l1 ih =>
    intro k
    rw [List.foldl_cons]
    obtain ⟨ex1, hex1, hprop1⟩ := innerFold_extra s1 snap k
    rw [hex1]
    obtain ⟨ex2, hex2, hprop2⟩ := ih (k ++ ex1)
    refine ⟨ex1 ++ ex2, by rw [hex2, List.append_assoc], ?_⟩
    intro s hs
    rcases List.mem_append.mp hs with hs' | hs'
    · obtain ⟨s2, hs2, hss, rfl⟩ := hprop1 s hs'
      exact ⟨s1, List.mem_cons_self _ _, s2, hs2, hss, rfl⟩
    · obtain ⟨t1, ht1, t2, ht2, hss, rfl⟩ := hprop2 s hs'
      exact ⟨t1, List.mem_cons_of_mem _ ht1, t2, ht2, hss, rfl⟩

theorem infer_extra (st : MinesweeperAI) :
    ∃ ex : List Sentence,
      (st.infer_new_sentences).knowledge = st.knowledge ++ ex ∧
      ex.countP (fun s => s.cells.isEmpty) = 0 ∧
      cellsUniverse (st.knowledge ++ ex) ⊆ cellsUniverse st.knowledge := by
  obtain ⟨ex, hex, hprop⟩ :=
    outerFold_extra st.knowledge st.knowledge st.knowledge
  refine ⟨ex, hex, ?_, ?_⟩
  · rw [List.countP_eq_zero]
    intro s hs
    obtain ⟨s1, _, s2, _, hss, rfl⟩ := hprop s hs
    simp [combined_not_empty hss]
  · apply cellsUniverse_subset_of_mem
    rintro c ⟨s, hs, hc⟩
    rcases List.mem_append.mp hs with hs' | hs'
    · exact ⟨s, hs', hc⟩
    · obtain ⟨s1, _, s2, hs2, hss, rfl⟩ := hprop s hs'
      exact ⟨s2, hs2, (mem_diffC.mp hc).1⟩

end TerminationInfer

section TerminationMain

theorem pass_decreases (st : MinesweeperAI) (hwk : nodupK st)
    (hch : (loopStep st).knowledge ≠ st.knowledge)
    (hlenA : st.knowledge.length ≤ 50)
    (hlenD : (loopStep st).knowledge.length ≤ 50) :
    passMeasure (loopStep st) < passMeasure st := by
  obtain ⟨ex, hD, hexcnt, hexuniv⟩ :=
    infer_extra st.refresh_knowledge.remove_stale_sentences
  have hDk : (loopStep st).knowledge =
      st.refresh_knowledge.remove_stale_sentences.knowledge ++ ex := hD
  have hCk : st.refresh_knowledge.remove_stale_sentences.knowledge =
      st.refresh_knowledge.knowledge.foldl removeStep
        st.refresh_knowledge.knowledge := rfl
  have hEdef : (loopStep st).knowledge.countP (fun s => s.cells.isEmpty) =
      st.refresh_knowledge.remove_stale_sentences.knowledge.countP
        (fun s => s.cells.isEmpty) := by
    rw [hDk, List.countP_append, hexcnt, Nat.add_zero]
  have hWD : (cellsUniverse (loopStep st).knowledge).card ≤
      (cellsUniverse
        st.refresh_knowledge.remove_stale_sentences.knowledge).card := by
    apply Finset.card_le_card
    rw [hDk]
    exact hexuniv
  have hWCB : (cellsUniverse
      st.refresh_knowledge.remove_stale_sentences.knowledge).card ≤
      (cellsUniverse st.refresh_knowledge.knowledge).card :=
    Finset.card_le_card (removeStale_univ st.refresh_knowledge)
  have hED50 : (loopStep st).knowledge.countP (fun s => s.cells.isEmpty) ≤
      50 := by
    have h1 : (loopStep st).knowledge.countP (fun s => s.cells.isEmpty) ≤
        (loopStep st).knowledge.length := List.countP_le_length _
    omega
  rcases dich_refresh st hwk with hBA | hBlt
  · have hWA : (cellsUniverse (loopStep st).knowledge).card ≤
        (cellsUniverse st.knowledge).card := by
      rw [hBA] at hWCB
      exact Nat.le_trans hWD hWCB
    by_cases hCB : st.refresh_knowledge.knowledge.foldl removeStep
        st.refresh_knowledge.knowledge = st.refresh_knowledge.knowledge
    · have hex : ex ≠ [] := by
        intro h
        apply hch
        rw [hDk, hCk, hCB, hBA, h, List.append_nil]
      have hexlen : 0 < ex.length := List.length_pos.mpr hex
      have hlend : (loopStep st).knowledge.length =
          st.knowledge.length + ex.length := by
        rw [hDk, hCk, hCB, hBA, List.length_append]
      have hEA : (loopStep st).knowledge.countP (fun s => s.cells.isEmpty) =
          st.knowledge.countP (fun s => s.cells.isEmpty) := by
        rw [hEdef, hCk, hCB, hBA]
      unfold passMeasure
      omega
    · have hEC := foldRemove_strict st.refresh_knowledge.knowledge
        st.refresh_knowledge.knowledge hCB
      have hEA : (loopStep st).knowledge.countP (fun s => s.cells.isEmpty) <
          st.knowledge.countP (fun s => s.cells.isEmpty) := by
        rw [hEdef, hCk, hBA]
        rw [hBA] at hEC
        exact hEC
      unfold passMeasure
      omega
  · have hWlt : (cellsUniverse st.refresh_knowledge.knowledge).card <
        (cellsUniverse st.knowledge).card := Finset.card_lt_card hBlt
    unfold passMeasure
    omega

theorem loopGo_no_fuelOut :
    ∀ m : Nat, ∀ st : MinesweeperAI, nodupK st →
      st.knowledge.length ≤ 50 → passMeasure st ≤ m →
      (loopGo (m + 1) st).2 ≠ ExitKind.fuelOut := by
  intro m
  induction m with
  | zero =>
    intro st hwk hlen hm
    rw [loopGo_succ]
    split
    · exact fun h => ExitKind.noConfusion h
    · split
      · exact fun h => ExitKind.noConfusion h
      · rename_i hne hcap
        exfalso
        have hch : (loopStep st).knowledge ≠ st.knowledge := by
          intro he
          apply hne
          rw [he]
          exact listEqB_refl _
        have hlt := pass_decreases st hwk hch hlen (Nat.not_lt.mp hcap)
        omega
  | succ n ih =>
    intro st hwk hlen hm
    rw [loopGo_succ]
    split
    · exact fun h => ExitKind.noConfusion h
    · split
      · exact fun h => ExitKind.noConfusion h
      · rename_i hne hcap
        have hch : (loopStep st).knowledge ≠ st.knowledge := by
          intro he
          apply hne
          rw [he]
          exact listEqB_refl _
        have hlt := pass_decreases st hwk hch hlen (Nat.not_lt.mp hcap)
        exact ih (loopStep st) (nodupK_loopStep st hwk)
          (Nat.not_lt.mp hcap) (by omega)

theorem nodupK_buildStart (st : MinesweeperAI) (cell : Cell) (count : Int)
    (hwk : nodupK st) : nodupK (buildStart st cell count) := by
  intro s hs
  rcases List.mem_append.mp hs with h' | h'
  · exact @nodupK_markSafe
      { st with moves_made := insertC cell st.moves_made } cell hwk s h'
  · rw [List.mem_singleton.mp h']
    exact foldSafeS_cells_nodup _ _
      (foldMineS_cells_nodup _ _ (neighbouring_cells_nodup _ _ _))

/-- Claim C5: `add_knowledge` terminates for every input.  For any starting
state whose live sentences have duplicate-free cell lists (automatic for
Python sets) and any revealed cell and count, some finite fuel suffices for
the embedded fixpoint loop: it exits by value-equality quiescence of
`knowledge` or by the defensive size cap, never by exhausting its fuel, so
the Python `while True` loop performs only finitely many passes before
returning to the caller. -/
theorem c5_add_knowledge_terminates (st : MinesweeperAI) (cell : Cell)
    (count : Int) (hwk : nodupK st) :
    ∃ fuel : Nat,
      (st.add_knowledge fuel cell count).2 ≠ ExitKind.fuelOut := by
  refine ⟨passMeasure (loopStep (buildStart st cell count)) + 1 + 1, ?_⟩
  rw [add_knowledge_eq_loopGo, loopGo_succ]
  split
  · exact fun h => ExitKind.noConfusion h
  · split
    · exact fun h => ExitKind.noConfusion h
    · rename_i hne hcap
      exact loopGo_no_fuelOut
        (passMeasure (loopStep (buildStart st cell count)))
        (loopStep (buildStart st cell count))
        (nodupK_loopStep _ (nodupK_buildStart st cell count hwk))
        (Nat.not_lt.mp hcap) (Nat.le_refl _)

/-- Witness for C5: on a fresh 3×3 AI (empty knowledge, trivially
duplicate-free), revealing `(1, 1)` with count 0 terminates. -/
theorem c5_add_knowledge_terminates_witness :
    ∃ fuel : Nat,
      ((MinesweeperAI.init 3 3).add_knowledge fuel (1, 1) 0).2 ≠
        ExitKind.fuelOut :=
  c5_add_knowledge_terminates (MinesweeperAI.init 3 3) (1, 1) 0
    (fun s hs => by cases hs)

end TerminationMain
